import Mathlib

/-!
Verification of the gitbook-downloader core (`src/core/html-parser.js`).

This file gives a shallow embedding of the pure parts of the crawler:
the Turndown table rule, the striped worker pool of `processPages`, the
control flow of `processItem` and of the navigation retry in
`downloadGitbook`, the image localisation of `processImages`, the TOC
resolver `extractTableOfContents`, the index links of `createIndexFile`,
and the output-path computation.  External effects (puppeteer sessions,
`fetch`, the filesystem, turndown's generic conversion) are modelled as
oracle fields of environment records; every branch and string
computation that the JavaScript performs itself is translated directly.

String primitives of JavaScript (`includes`, `split`, `trim`,
`startsWith`, regular-expression tests used by the code) are
implemented below on `List Char` so that all definitions compute by
kernel reduction.
-/

/-! ### Character-list string primitives -/

/-- `leadsWith pat l` is true when `pat` occurs at the start of `l`
(JavaScript `String.prototype.startsWith`). -/
def leadsWith : List Char → List Char → Bool
  | [], _ => true
  | _ :: _, [] => false
  | a :: as, b :: bs => a == b && leadsWith as bs

/-- Substring occurrence test (JavaScript `String.prototype.includes`). -/
def subOccurs (pat : List Char) : List Char → Bool
  | [] => leadsWith pat []
  | c :: rest => leadsWith pat (c :: rest) || subOccurs pat rest

/-- `s.includes(pat)` on Lean strings. -/
def strIncludes (s pat : String) : Bool := subOccurs pat.data s.data

/-- `s.startsWith(pre)` on Lean strings. -/
def strStartsWith (s pre : String) : Bool := leadsWith pre.data s.data

/-- JavaScript `String.prototype.trim` (both ends, whitespace). -/
def trimChars (l : List Char) : List Char :=
  ((l.dropWhile Char.isWhitespace).reverse.dropWhile Char.isWhitespace).reverse

/-- `s.trim()` on Lean strings. -/
def jsTrim (s : String) : String := String.mk (trimChars s.data)

/-- Split a character list at every character satisfying `p`
(JavaScript `String.prototype.split` with a one-character separator,
or a whitespace character class). -/
def splitOnPred (p : Char → Bool) : List Char → List (List Char)
  | [] => [[]]
  | c :: rest =>
    if p c then [] :: splitOnPred p rest
    else
      match splitOnPred p rest with
      | h :: t => (c :: h) :: t
      | [] => [[c]]

/-- `s.split(sep)` for a one-character separator. -/
def splitOnChar (sep : Char) (l : List Char) : List (List Char) :=
  splitOnPred (fun c => c == sep) l

/-- Lower-casing used to model case-insensitive regular expressions. -/
def lowerStr (s : String) : String := String.mk (s.data.map Char.toLower)

/-- `parts.join(sep)` (JavaScript `Array.prototype.join`). -/
def joinWith (sep : String) : List String → String
  | [] => ""
  | [s] => s
  | s :: rest => s ++ sep ++ joinWith sep rest

/-! ### The Turndown `domTable` rule (html-parser.js lines 30-85)

A table row is modelled as the list of its cells in document order,
a cell by whether it is a `<th>` and its `textContent`; the table by
the list of its `<tr>` rows (`node.querySelectorAll("tr")`). -/

structure Cell where
  isHeader : Bool
  text : String
deriving DecidableEq, Repr

abbrev Row := List Cell

/-- `normalizeCellText`: collapse `/\r?\n+/g` runs to single spaces.
The regular expression matches an optional `\r` followed by a maximal
run of `\n`; the boolean argument records whether we are inside a
maximal `\n+` run that has already produced its space. -/
def replNlGo : Bool → List Char → List Char
  | _, [] => []
  | true, '\n' :: rest => replNlGo true rest
  | false, '\n' :: rest => ' ' :: replNlGo true rest
  | _, '\r' :: '\n' :: rest => ' ' :: replNlGo true rest
  | _, '\r' :: rest => '\r' :: replNlGo false rest
  | _, c :: rest => c :: replNlGo false rest

/-- `normalizeCellText`: escape `|` as `\|`. -/
def escapePipes : List Char → List Char
  | [] => []
  | '|' :: rest => '\\' :: '|' :: escapePipes rest
  | c :: rest => c :: escapePipes rest

/-- `normalizeCellText(text)` from the `domTable` rule: collapse newline
runs to spaces, escape pipes, trim. -/
def normalizeCellText (s : String) : String :=
  jsTrim (String.mk (escapePipes (replNlGo false s.data)))

/-- Whether a row contains a header cell (`r.querySelector("th")`). -/
def rowHasTh (r : Row) : Bool := r.any (·.isHeader)

/-- Index of the row used as header: the first row containing a `<th>`,
else row 0 (`rows.find((r) => r.querySelector("th")) || rows[0]`). -/
def headerRowIdx (rows : List Row) : Nat :=
  (rows.findIdx? (fun r => rowHasTh r)).getD 0

/-- The header row itself. -/
def headerRow (rows : List Row) : Row := (rows.get? (headerRowIdx rows)).getD []

/-- `startIndex`: the JavaScript compares `headerRow === rows[0]` by
object identity, which holds exactly when the chosen header index is 0
(both arms of the original conditional yield 1 in that case, else 0). -/
def startIndex (rows : List Row) : Nat :=
  if headerRowIdx rows = 0 then 1 else 0

/-- Normalised header cell texts. -/
def tableHeaders (rows : List Row) : List String :=
  (headerRow rows).map (fun c => normalizeCellText c.text)

/-- Body-line cell texts: one entry per header column; a missing cell
renders as `normalizeCellText("")`, cells beyond the header length are
not read (`headers.map((_, idx) => ...cells[idx]...)`). -/
def bodyLineTexts (n : Nat) (r : Row) : List String :=
  (List.range n).map (fun i => normalizeCellText (((r.get? i).map Cell.text).getD ""))

/-- `"| " + texts.join(" | ") + " |"`. -/
def renderRowLine (texts : List String) : String :=
  "| " ++ joinWith " | " texts ++ " |"

/-- The cell texts of every emitted line: header, separator, body rows
from `startIndex` on. -/
def tableFieldRows (rows : List Row) : List (List String) :=
  tableHeaders rows
    :: (tableHeaders rows).map (fun _ => "---")
    :: (rows.drop (startIndex rows)).map
        (fun r => bodyLineTexts (tableHeaders rows).length r)

/-- The lines emitted by the `domTable` replacement (empty for a table
with no rows). -/
def tableLines (rows : List Row) : List String :=
  if rows = [] then [] else (tableFieldRows rows).map renderRowLine

/-- The full replacement string: lines joined by `\n` plus `"\n\n"`;
`""` when the table has no rows.  The `try`/`catch` fallback of the
rule is unreachable here because the model is total. -/
def domTableReplacement (rows : List Row) : String :=
  if rows = [] then "" else joinWith "\n" (tableLines rows) ++ "\n\n"

theorem normalizeCellText_empty : normalizeCellText "" = "" := by decide

/-- Table whose first row has no `<th>` but whose second row does. -/
def c1Rows : List Row := [[⟨false, "a"⟩], [⟨true, "h"⟩]]

/-- C1 (counterexample): the claim reads the emitted line count as
`M + 2` where `M` is the number of rows other than the header row.  For
`c1Rows` the header row is the second row, the claim predicts
`(2 - 1) + 2 = 3` lines, but the rule emits 4: `startIndex` is 0 when
the header row is not the first row, so every row — the header row
included — is re-emitted as a body line. -/
theorem c1_counterexample :
    ¬ ((tableLines c1Rows).length = (c1Rows.length - 1) + 2) := by decide

/-- C1 (amended): for every nonempty table the rule emits
`(rows.length - startIndex rows) + 2` lines — `startIndex` is 1 when the
header row is the first row and 0 otherwise (in which case the header
row is re-emitted as a body line) — each line rendered from exactly `N`
cell texts where `N` is the header length; a body row's missing cells
render as the empty string and cells beyond the header length are not
read. -/
theorem c1_table_rule_amended (rows : List Row) (h : rows ≠ []) :
    (tableLines rows).length = (rows.length - startIndex rows) + 2
    ∧ (∀ fs ∈ tableFieldRows rows, fs.length = (tableHeaders rows).length)
    ∧ tableLines rows = (tableFieldRows rows).map renderRowLine
    ∧ (∀ r : Row, ∀ i, i < (tableHeaders rows).length → r.length ≤ i →
        (bodyLineTexts (tableHeaders rows).length r).getD i "x" = "")
    ∧ (∀ r : Row, bodyLineTexts (tableHeaders rows).length r
        = bodyLineTexts (tableHeaders rows).length (r.take (tableHeaders rows).length)) := by
  refine ⟨?_, ?_, ?_, ?_, ?_⟩
  · simp [tableLines, h, tableFieldRows]
  · intro fs hfs
    simp only [tableFieldRows, List.mem_cons, List.mem_map] at hfs
    rcases hfs with rfl | hfs
    · rfl
    · rcases hfs with rfl | ⟨r, _, rfl⟩
      · simp
      · simp [bodyLineTexts]
  · simp [tableLines, h]
  · intro r i hi hlen
    have hnone : r[i]? = none := List.getElem?_eq_none hlen
    simp [bodyLineTexts, List.getD_eq_getElem?_getD, List.getElem?_map,
      List.getElem?_range hi, hnone, normalizeCellText_empty]
  · intro r
    unfold bodyLineTexts
    apply List.map_congr_left
    intro i hi
    have hi' : i < (tableHeaders rows).length := List.mem_range.mp hi
    have : (r.take (tableHeaders rows).length).get? i = r.get? i := by
      rw [List.get?_eq_getElem?, List.get?_eq_getElem?]
      exact List.getElem?_take_of_lt hi'
    rw [this]

/-- Witness for C1: the amended statement instantiated at `c1Rows`. -/
theorem c1_table_rule_amended_witness :
    (tableLines c1Rows).length = (c1Rows.length - startIndex c1Rows) + 2
    ∧ (∀ fs ∈ tableFieldRows c1Rows, fs.length = (tableHeaders c1Rows).length)
    ∧ tableLines c1Rows = (tableFieldRows c1Rows).map renderRowLine
    ∧ (∀ r : Row, ∀ i, i < (tableHeaders c1Rows).length → r.length ≤ i →
        (bodyLineTexts (tableHeaders c1Rows).length r).getD i "x" = "")
    ∧ (∀ r : Row, bodyLineTexts (tableHeaders c1Rows).length r
        = bodyLineTexts (tableHeaders c1Rows).length (r.take (tableHeaders c1Rows).length)) :=
  c1_table_rule_amended c1Rows (by decide)

/-! ### The worker pool of `processPages` (html-parser.js lines 909-925)

`workers = Math.min(concurrency, total)`; worker `w` runs
`idx = w; while (idx < total) { await processItem(idx); idx += workers }`.
The side condition `0 < workers` is needed for termination of the model;
the JavaScript never enters the loop body with `workers = 0` because no
worker function is created in that case. -/

def workerLoop (workers total idx : Nat) : List Nat :=
  if h : idx < total ∧ 0 < workers then
    idx :: workerLoop workers total (idx + workers)
  else []
termination_by total - idx
decreasing_by omega

/-- The full schedule: one index list per worker. -/
def processPagesSchedule (concurrency total : Nat) : List (List Nat) :=
  (List.range (Nat.min concurrency total)).map
    (fun w => workerLoop (Nat.min concurrency total) total w)

theorem workerLoop_mem_iff (workers total : Nat) :
    ∀ idx i, i ∈ workerLoop workers total idx ↔
      (0 < workers ∧ idx ≤ i ∧ i < total ∧ (i - idx) % workers = 0) := by
  intro idx
  induction idx using workerLoop.induct workers total with
  | case1 idx h ih =>
    intro i
    rw [workerLoop]
    simp only [dif_pos h, List.mem_cons, ih i]
    constructor
    · rintro (rfl | ⟨hw, hle, hlt, hmod⟩)
      · exact ⟨h.2, Nat.le_refl _, h.1, by simp⟩
      · refine ⟨hw, by omega, hlt, ?_⟩
        have : i - idx = (i - (idx + workers)) + workers := by omega
        rw [this, Nat.add_mod_right]
        exact hmod
    · rintro ⟨hw, hle, hlt, hmod⟩
      rcases Nat.eq_or_lt_of_le hle with rfl | hlt2
      · exact Or.inl rfl
      · right
        obtain ⟨q, hq⟩ := Nat.dvd_of_mod_eq_zero hmod
        have hq1 : 1 ≤ q := by
          rcases Nat.eq_zero_or_pos q with rfl | hpos
          · omega
          · exact hpos
        have hqs : workers * q = workers * (q - 1) + workers := by
          conv_lhs => rw [show q = q - 1 + 1 from by omega]
          rw [Nat.mul_succ]
        refine ⟨hw, by omega, hlt, ?_⟩
        have hrw : i - (idx + workers) = workers * (q - 1) := by omega
        rw [hrw]
        exact Nat.mul_mod_right _ _
  | case2 idx h =>
    intro i
    rw [workerLoop]
    simp only [dif_neg h, List.not_mem_nil, false_iff]
    rintro ⟨hw, hle, hlt, _⟩
    exact h ⟨by omega, hw⟩

theorem workerLoop_pairwise (workers total : Nat) :
    ∀ idx, List.Pairwise (· < ·) (workerLoop workers total idx) := by
  intro idx
  induction idx using workerLoop.induct workers total with
  | case1 idx h ih =>
    rw [workerLoop]
    simp only [dif_pos h]
    refine List.Pairwise.cons ?_ ih
    intro j hj
    have := (workerLoop_mem_iff workers total (idx + workers) j).mp hj
    omega
  | case2 idx h =>
    rw [workerLoop]
    simp [dif_neg h]

theorem workerLoop_nodup (workers total idx : Nat) :
    (workerLoop workers total idx).Nodup :=
  (workerLoop_pairwise workers total idx).imp (fun hab => Nat.ne_of_lt hab)

theorem workerLoop_count (workers total idx i : Nat) :
    (workerLoop workers total idx).count i
      = if 0 < workers ∧ idx ≤ i ∧ i < total ∧ (i - idx) % workers = 0 then 1 else 0 := by
  by_cases hmem : i ∈ workerLoop workers total idx
  · rw [if_pos ((workerLoop_mem_iff workers total idx i).mp hmem)]
    exact List.count_eq_one_of_mem (workerLoop_nodup workers total idx) hmem
  · rw [if_neg (fun hc => hmem ((workerLoop_mem_iff workers total idx i).mpr hc))]
    exact List.count_eq_zero.mpr hmem

/-- For a worker index `w < workers`, membership in `w`'s stripe is
exactly `i < total ∧ i % workers = w`. -/
theorem workerLoop_stripe (workers total w : Nat) (hw : w < workers) (i : Nat) :
    i ∈ workerLoop workers total w ↔ (i < total ∧ i % workers = w) := by
  rw [workerLoop_mem_iff]
  constructor
  · rintro ⟨hpos, hle, hlt, hmod⟩
    obtain ⟨q, hq⟩ := Nat.dvd_of_mod_eq_zero hmod
    have hi : i = w + workers * q := by omega
    refine ⟨hlt, ?_⟩
    rw [hi, Nat.add_mul_mod_self_left]
    exact Nat.mod_eq_of_lt hw
  · rintro ⟨hlt, hmod⟩
    have hle : w ≤ i := hmod ▸ Nat.mod_le i workers
    refine ⟨by omega, hle, hlt, ?_⟩
    have hdm : workers * (i / workers) + i % workers = i := Nat.div_add_mod i workers
    have : i - w = workers * (i / workers) := by omega
    rw [this]
    exact Nat.mul_mod_right _ _

theorem sum_map_range_single (n j : Nat) (hj : j < n) (f : Nat → Nat)
    (hf : ∀ w, w < n → f w = if j = w then 1 else 0) :
    ((List.range n).map f).sum = 1 := by
  induction n with
  | zero => omega
  | succ n ih =>
    rw [List.range_succ, List.map_append, List.sum_append]
    rcases Nat.lt_or_ge j n with hlt | hge
    · have h1 : ((List.range n).map f).sum = 1 :=
        ih hlt (fun w hw => hf w (Nat.lt_succ_of_lt hw))
      have h2 : f n = 0 := by
        rw [hf n (Nat.lt_succ_self n), if_neg (by omega)]
      simp [h1, h2]
    · have hjn : j = n := by omega
      have h2 : f n = 1 := by rw [hf n (Nat.lt_succ_self n), if_pos hjn]
      have h1 : ((List.range n).map f).sum = 0 := by
        apply List.sum_eq_zero
        intro x hx
        simp only [List.mem_map, List.mem_range] at hx
        obtain ⟨w, hw, rfl⟩ := hx
        rw [hf w (Nat.lt_succ_of_lt hw), if_neg (by omega)]
      simp [h1, h2]

/-- C2: with a positive configured concurrency, `processPages` creates
exactly `min(concurrency, page_count)` workers; worker `w`'s stripe is
exactly the indices `i < total` with `i % workers = w` (that is,
`w, w + workers, w + 2·workers, …`); and every page index `i < total`
occurs in the combined schedule exactly once. -/
theorem c2_worker_pool (concurrency total : Nat) (hc : 1 ≤ concurrency) :
    (processPagesSchedule concurrency total).length = Nat.min concurrency total
    ∧ (∀ w, w < Nat.min concurrency total → ∀ i,
        i ∈ (processPagesSchedule concurrency total).getD w [] ↔
          (i < total ∧ i % Nat.min concurrency total = w))
    ∧ (∀ i, i < total →
        ((processPagesSchedule concurrency total).map (fun l => l.count i)).sum = 1) := by
  refine ⟨by simp [processPagesSchedule], ?_, ?_⟩
  · intro w hw i
    have hget : (processPagesSchedule concurrency total).getD w []
        = workerLoop (Nat.min concurrency total) total w := by
      simp [processPagesSchedule, List.getD_eq_getElem?_getD, List.getElem?_map,
        List.getElem?_range hw]
    rw [hget]
    exact workerLoop_stripe _ total w hw i
  · intro i hi
    have hpos : 0 < Nat.min concurrency total := Nat.lt_min.mpr ⟨hc, by omega⟩
    rw [processPagesSchedule, List.map_map]
    apply sum_map_range_single _ (i % Nat.min concurrency total)
      (Nat.mod_lt i hpos)
    intro w hw
    simp only [Function.comp_apply]
    rw [workerLoop_count]
    have hiff : (0 < Nat.min concurrency total ∧ w ≤ i ∧ i < total
        ∧ (i - w) % Nat.min concurrency total = 0)
        ↔ (i % Nat.min concurrency total = w) := by
      rw [← workerLoop_mem_iff (Nat.min concurrency total) total w i,
        workerLoop_stripe (Nat.min concurrency total) total w hw i]
      exact ⟨fun h2 => h2.2, fun h2 => ⟨hi, h2⟩⟩
    simp only [hiff]

/-- Witness for C2 at `concurrency = 2`, `total = 5`. -/
theorem c2_worker_pool_witness :
    (processPagesSchedule 2 5).length = Nat.min 2 5
    ∧ (∀ w, w < Nat.min 2 5 → ∀ i,
        i ∈ (processPagesSchedule 2 5).getD w [] ↔ (i < 5 ∧ i % Nat.min 2 5 = w))
    ∧ (∀ i, i < 5 → ((processPagesSchedule 2 5).map (fun l => l.count i)).sum = 1) :=
  c2_worker_pool 2 5 (by decide)

/-! ### DOM model and the TOC resolver (html-parser.js lines 654-717)

Elements are modelled with their upper-case `tagName`, attribute list
and children; `querySelector` is pre-order document-order search. -/

inductive Dom where
  | elem (tag : String) (attrs : List (String × String)) (children : List Dom)
  | text (s : String)

/-- First attribute value with the given name (`getAttribute`). -/
def getAttrL (attrs : List (String × String)) (name : String) : Option String :=
  match attrs.find? (fun p => p.1 == name) with
  | some p => some p.2
  | none => none

/-- `getAttribute` on a node (`null` on text nodes). -/
def domGetAttr : Dom → String → Option String
  | .elem _ attrs _, n => getAttrL attrs n
  | .text _, _ => none

/-- `element.tagName` (empty for text nodes). -/
def domTag : Dom → String
  | .elem t _ _ => t
  | .text _ => ""

mutual
/-- `textContent`: concatenation of all descendant text. -/
def textContent : Dom → String
  | .text s => s
  | .elem _ _ ch => textContentList ch
def textContentList : List Dom → String
  | [] => ""
  | d :: ds => textContent d ++ textContentList ds
end

mutual
/-- `document.querySelector`-style search: first element (pre-order,
document order) satisfying `p`. -/
def domFind? (p : Dom → Bool) : Dom → Option Dom
  | .text _ => none
  | .elem t a ch =>
    if p (.elem t a ch) then some (.elem t a ch) else domFindList? p ch
def domFindList? (p : Dom → Bool) : List Dom → Option Dom
  | [] => none
  | d :: ds =>
    match domFind? p d with
    | some r => some r
    | none => domFindList? p ds
end

/-- Class attribute split into tokens. -/
def classTokens (d : Dom) : List String :=
  match domGetAttr d "class" with
  | some c => ((splitOnPred (fun ch => ch.isWhitespace) c.data).filter
      (fun t => t ≠ [])).map String.mk
  | none => []

/-- Matches `[data-testid="table-of-contents"]`. -/
def isModernToc (d : Dom) : Bool := domGetAttr d "data-testid" == some "table-of-contents"

/-- Matches `ul.summary`. -/
def isClassicSummary (d : Dom) : Bool :=
  domTag d == "UL" && (classTokens d).contains "summary"

/-- The TOC container: modern marker first, else the classic
`ul.summary` (lines 658-666). -/
def findTocContainer (doc : Dom) : Option Dom :=
  match domFind? isModernToc doc with
  | some c => some c
  | none => domFind? isClassicSummary doc

mutual
/-- All `a[href]` descendants in document order, each paired with the
tag names of its strict ancestors below the enclosing container
(nearest first) — the chain walked by `getElementLevel`. -/
def collectLinks (anc : List String) : Dom → List (Dom × List String)
  | .text _ => []
  | .elem t a ch =>
    (if t == "A" && (getAttrL a "href").isSome
      then [(Dom.elem t a ch, anc)] else [])
      ++ collectLinksList (t :: anc) ch
def collectLinksList (anc : List String) : List Dom → List (Dom × List String)
  | [] => []
  | d :: ds => collectLinks anc d ++ collectLinksList anc ds
end

/-- `getElementLevel` (lines 700-715): 1 plus one per `LI` ancestor
strictly between the link and the container, floored at 1. -/
def getElementLevel (anc : List String) : Nat :=
  Nat.max 1 (1 + anc.count "LI")

structure TocItem where
  title : String
  url : String
  level : Nat
deriving DecidableEq, Repr

/-- Href normalisation (lines 684-688): strip one leading `./`, force a
leading `/`. -/
def normalizeHref (href : String) : String :=
  let h := match href.data with
           | '.' :: '/' :: rest => String.mk rest
           | _ => href
  match h.data with
  | '/' :: _ => h
  | _ => String.mk ('/' :: h.data)

/-- Per-link body of the `links.forEach` loop (lines 674-695): skip
empty/fragment hrefs, skip `http…` hrefs, else build a descriptor. -/
def mkTocItem (link : Dom) (anc : List String) : Option TocItem :=
  let href := (domGetAttr link "href").getD ""
  let title := jsTrim (textContent link)
  if href = "" ∨ href = "#" then none
  else if strStartsWith href "http" then none
  else some ⟨title, normalizeHref href, getElementLevel anc⟩

/-- `extractTableOfContents` (lines 654-717). -/
def extractTableOfContents (doc : Dom) : List TocItem :=
  match findTocContainer doc with
  | none => []
  | some (.text _) => []
  | some (.elem _ _ ch) =>
    (collectLinksList [] ch).filterMap (fun la => mkTocItem la.1 la.2)

/-- `downloadGitbook`'s mode dispatch (lines 570-615): single page iff
the URL has a path and `all` is false; otherwise whole-site with the
extracted TOC.  There is no emptiness check on the TOC. -/
inductive RunMode where
  | singlePage
  | wholeSite (toc : List TocItem)
deriving DecidableEq, Repr

def chooseMode (pathname : String) (all : Bool) (doc : Dom) : RunMode :=
  if (pathname ≠ "/" ∧ pathname ≠ "") ∧ ¬all then RunMode.singlePage
  else RunMode.wholeSite (extractTableOfContents doc)

/-- A root document without any TOC container. -/
def c8Doc : Dom := Dom.elem "BODY" [] [Dom.text "hello"]

/-- C8 (counterexample): on a root URL (`pathname = "/"`, `all = false`)
whose document has no TOC container, the resolver yields `[]` but the
caller stays in whole-site mode with an empty page list — it does not
fall back to single-page mode as the claim states. -/
theorem c8_counterexample :
    chooseMode "/" false c8Doc = RunMode.wholeSite []
    ∧ RunMode.wholeSite [] ≠ RunMode.singlePage := by
  constructor
  · decide
  · intro hcontra
    exact RunMode.noConfusion hcontra

/-- C8 (amended): if no TOC container is found the resolver returns the
empty sequence, and the whole-site caller — reached for a root URL —
proceeds with that empty sequence (scheduling zero pages) instead of
falling back to single-page mode. -/
theorem c8_empty_toc (doc : Dom) (hnone : findTocContainer doc = none) :
    extractTableOfContents doc = []
    ∧ (∀ all, chooseMode "/" all doc = RunMode.wholeSite [])
    ∧ (∀ c, processPagesSchedule c 0 = []) := by
  refine ⟨?_, ?_, ?_⟩
  · simp [extractTableOfContents, hnone]
  · intro all
    simp [chooseMode, extractTableOfContents, hnone]
  · intro c
    simp [processPagesSchedule]

/-- Witness for C8 at `c8Doc`. -/
theorem c8_empty_toc_witness :
    extractTableOfContents c8Doc = []
    ∧ (∀ all, chooseMode "/" all c8Doc = RunMode.wholeSite [])
    ∧ (∀ c, processPagesSchedule c 0 = []) :=
  c8_empty_toc c8Doc rfl

/-- A depth-3 TOC (container → UL → LI → UL → LI → link) together with
a container-level link. -/
def c9Doc (h1 t1 h2 t2 : String) : Dom :=
  Dom.elem "DIV" [("data-testid", "table-of-contents")]
    [ Dom.elem "UL" []
        [ Dom.elem "LI" []
            [ Dom.elem "UL" []
                [ Dom.elem "LI" []
                    [ Dom.elem "A" [("href", h1)] [Dom.text t1] ] ] ] ],
      Dom.elem "A" [("href", h2)] [Dom.text t2] ]

theorem str_append_empty (s : String) : s ++ "" = s := by
  cases s with
  | mk data => show String.mk (data ++ []) = String.mk data; rw [List.append_nil]

/-- C9: in the depth-3 hierarchy the nested link (two `LI` ancestors)
gets level 3 and the container-level link (no `LI` ancestors) gets the
floor level 1; moreover every computed level is at least 1. -/
theorem c9_toc_levels (h1 t1 h2 t2 : String)
    (h1a : h1 ≠ "") (h1b : h1 ≠ "#") (h1c : strStartsWith h1 "http" = false)
    (h2a : h2 ≠ "") (h2b : h2 ≠ "#") (h2c : strStartsWith h2 "http" = false) :
    extractTableOfContents (c9Doc h1 t1 h2 t2)
      = [⟨jsTrim t1, normalizeHref h1, 3⟩, ⟨jsTrim t2, normalizeHref h2, 1⟩]
    ∧ (∀ doc : Dom, ∀ item ∈ extractTableOfContents doc, 1 ≤ item.level) := by
  constructor
  · simp [extractTableOfContents, c9Doc, findTocContainer, domFind?, isModernToc,
      domGetAttr, getAttrL, collectLinksList, collectLinks, mkTocItem,
      h1a, h1b, h1c, h2a, h2b, h2c, textContent, textContentList,
      str_append_empty, getElementLevel]
  · intro doc item hitem
    match hfind : findTocContainer doc with
    | none => rw [extractTableOfContents, hfind] at hitem; simp at hitem
    | some (.text s) => rw [extractTableOfContents, hfind] at hitem; simp at hitem
    | some (.elem t a ch) =>
      rw [extractTableOfContents, hfind] at hitem
      obtain ⟨⟨link, anc⟩, _, hmk⟩ := List.mem_filterMap.mp hitem
      unfold mkTocItem at hmk
      by_cases hc1 : ((domGetAttr link "href").getD "") = ""
        ∨ ((domGetAttr link "href").getD "") = "#"
      · rw [if_pos hc1] at hmk; exact absurd hmk (by simp)
      · rw [if_neg hc1] at hmk
        by_cases hc2 : strStartsWith ((domGetAttr link "href").getD "") "http" = true
        · rw [if_pos hc2] at hmk; exact absurd hmk (by simp)
        · rw [if_neg hc2] at hmk
          have : item = ⟨jsTrim (textContent link),
              normalizeHref ((domGetAttr link "href").getD ""),
              getElementLevel anc⟩ := by
            cases hmk; rfl
          rw [this]
          show 1 ≤ Nat.max 1 (1 + anc.count "LI")
          exact Nat.le_max_left _ _

/-- Witness for C9 at concrete hrefs and titles. -/
theorem c9_toc_levels_witness :
    extractTableOfContents (c9Doc "/a/b" " A " "./c" "C")
      = [⟨jsTrim " A ", normalizeHref "/a/b", 3⟩, ⟨jsTrim "C", normalizeHref "./c", 1⟩]
    ∧ (∀ doc : Dom, ∀ item ∈ extractTableOfContents doc, 1 ≤ item.level) :=
  c9_toc_levels "/a/b" " A " "./c" "C" (by decide) (by decide) (by decide)
    (by decide) (by decide) (by decide)

/-! ### Node `path` primitives (posix flavour)

`processItem` and `processImages` use `path.dirname`, `path.basename`,
`path.extname` and `path.join`; these are re-implemented here on
character lists following Node's posix algorithms.  All paths handled
by the crawler are relative (output-directory relative), so the
absolute-path branches are irrelevant in the theorems below. -/

/-- `url.replace(/^\//, "")`. -/
def stripLeadingSlash (s : String) : String :=
  match s.data with
  | '/' :: rest => String.mk rest
  | _ => s

/-- Node `path.posix.basename` on character lists: drop trailing
slashes, then take the final slash-free run. -/
def jsBasenameL (cs : List Char) : List Char :=
  ((cs.reverse.dropWhile (fun c => c == '/')).takeWhile
    (fun c => c != '/')).reverse

/-- Node `path.posix.basename`. -/
def jsBasename (s : String) : String := String.mk (jsBasenameL s.data)

/-- Node `path.posix.dirname` on character lists: scan from the end
skipping the trailing slashes and the basename; return the part before
the slash found there (keeping earlier consecutive slashes), `.`/`/`
for degenerate cases. -/
def jsDirnameL : List Char → List Char
  | [] => ['.']
  | c0 :: rest =>
    let cs := c0 :: rest
    let hasRoot := c0 = '/'
    let r1 := cs.reverse.dropWhile (fun c => c == '/')
    let r2 := r1.dropWhile (fun c => c != '/')
    if r2.length ≤ 1 then (if hasRoot then ['/'] else ['.'])
    else if hasRoot ∧ r2.length = 2 then ['/', '/']
    else cs.take (r2.length - 1)

/-- Node `path.posix.dirname`. -/
def jsDirname (s : String) : String := String.mk (jsDirnameL s.data)

/-- Node `path.posix.extname`: extension of the basename, empty for
dot-files and for `..`. -/
def jsExtname (s : String) : String :=
  let b := (jsBasename s).data
  if b = ['.', '.'] then ""
  else
    let revTail := b.reverse.takeWhile (fun c => c != '.')
    if revTail.length = b.length then ""
    else if revTail.length = b.length - 1 then ""
    else String.mk ('.' :: revTail.reverse)

/-- `parts.join("/")` on character lists. -/
def joinSegs : List (List Char) → List Char
  | [] => []
  | [s] => s
  | s :: rest => s ++ '/' :: joinSegs rest

/-- Node `path.normalize` segment resolution for relative paths:
drop `.`, resolve `..` against the accumulator. -/
def normalizeSegs : List (List Char) → List (List Char) → List (List Char)
  | [], acc => acc.reverse
  | s :: rest, acc =>
    if s = ['.'] then normalizeSegs rest acc
    else if s = ['.', '.'] then
      match acc with
      | [] => normalizeSegs rest [['.', '.']]
      | top :: t =>
        if top = ['.', '.'] then normalizeSegs rest (['.', '.'] :: acc)
        else normalizeSegs rest t
    else normalizeSegs rest (s :: acc)

/-- Node `path.join(...parts)` for relative paths: drop empty parts,
join with `/`, normalize; `"."` when nothing remains. -/
def jsJoinParts (parts : List String) : String :=
  let ps := parts.filter (fun p => p ≠ "")
  let joined := joinSegs (ps.map String.data)
  let segs := (splitOnChar '/' joined).filter (fun g => g ≠ [])
  let norm := normalizeSegs segs []
  if norm = [] then "." else String.mk (joinSegs norm)

/-! ### Index links and output paths (lines 725-737 and 879-897) -/

/-- The link target written by `createIndexFile`:
`item.url.replace(/^\//, "") + ".md"`. -/
def indexLink (item : TocItem) : String := stripLeadingSlash item.url ++ ".md"

/-- One line of the README index. -/
def indexLine (item : TocItem) : String :=
  joinWith "" (List.replicate (item.level - 1) "  ")
    ++ "- [" ++ item.title ++ "](" ++ indexLink item ++ ")\n"

/-- `processItem`'s file name: hostname-derived at the site root, else
`basename + ".md"` (lines 884-890). -/
def artifactFileName (rel hostname : String) : String :=
  if rel = "" then hostname ++ ".md" else jsBasename rel ++ ".md"

/-- The artifact path relative to the output directory:
`path.join(path.dirname(relativePath), fileName)`. -/
def artifactRelPath (itemUrl hostname : String) : String :=
  let rel := stripLeadingSlash itemUrl
  jsJoinParts [jsDirname rel, artifactFileName rel hostname]

/-- C10 (counterexample): for the site-root entry (url `/`) the README
links to `.md` while the artifact is written as `example.com.md` — the
two paths differ, so the index link is broken for the root entry. -/
theorem c10_counterexample :
    indexLink ⟨"Home", "/", 1⟩ = ".md"
    ∧ artifactRelPath "/" "example.com" = "example.com.md"
    ∧ (".md" : String) ≠ "example.com.md" := by
  refine ⟨by decide, by decide, by decide⟩

/-! ### Helper lemmas for path reasoning on clean segment lists -/

/-- A clean path segment: nonempty, slash-free, not `.` or `..`. -/
def CleanSeg (g : List Char) : Prop :=
  g ≠ [] ∧ '/' ∉ g ∧ g ≠ ['.'] ∧ g ≠ ['.', '.']

theorem str_mk_append (a b : List Char) :
    String.mk a ++ String.mk b = String.mk (a ++ b) := rfl

theorem takeWhile_append_stop (p : Char → Bool) (x : Char) (hx : p x = false) :
    ∀ A B : List Char, ((A ++ x :: B).takeWhile p) = A.takeWhile p := by
  intro A B
  induction A with
  | nil => simp [List.takeWhile_cons, hx]
  | cons a A ih =>
    cases hpa : p a <;> simp [List.takeWhile_cons, hpa, ih]

theorem dropWhile_append_stop (p : Char → Bool) (x : Char) (hx : p x = false) :
    ∀ A B : List Char, ((A ++ x :: B).dropWhile p) = A.dropWhile p ++ x :: B := by
  intro A B
  induction A with
  | nil => simp [List.dropWhile_cons, hx]
  | cons a A ih =>
    cases hpa : p a <;> simp [List.dropWhile_cons, hpa, ih]

theorem takeWhile_of_all (p : Char → Bool) :
    ∀ l : List Char, (∀ c ∈ l, p c = true) → l.takeWhile p = l := by
  intro l h
  induction l with
  | nil => rfl
  | cons a l ih =>
    rw [List.takeWhile_cons, h a (List.mem_cons_self a l)]
    simp only [ite_true]
    rw [ih (fun c hc => h c (List.mem_cons_of_mem a hc))]

theorem dropWhile_of_all (p : Char → Bool) :
    ∀ l : List Char, (∀ c ∈ l, p c = true) → l.dropWhile p = [] := by
  intro l h
  induction l with
  | nil => rfl
  | cons a l ih =>
    rw [List.dropWhile_cons, h a (List.mem_cons_self a l)]
    simp only [ite_true]
    exact ih (fun c hc => h c (List.mem_cons_of_mem a hc))

theorem joinSegs_cons (s : List Char) (rest : List (List Char)) (h : rest ≠ []) :
    joinSegs (s :: rest) = s ++ '/' :: joinSegs rest := by
  cases rest with
  | nil => exact absurd rfl h
  | cons b t => rfl

theorem joinSegs_append_last (init : List (List Char)) (l : List Char) (h : init ≠ []) :
    joinSegs (init ++ [l]) = joinSegs init ++ '/' :: l := by
  induction init with
  | nil => exact absurd rfl h
  | cons a t ih =>
    cases t with
    | nil => rfl
    | cons b t2 =>
      rw [List.cons_append, joinSegs_cons a ((b :: t2) ++ [l]) (by simp),
        joinSegs_cons a (b :: t2) (by simp), ih (by simp), List.append_assoc]
      simp

/-- The last segment, default empty. -/
def lastSeg (segs : List (List Char)) : List Char := (segs.getLast?).getD []

theorem lastSeg_single (s : List Char) : lastSeg [s] = s := rfl

theorem lastSeg_cons (s : List Char) (rest : List (List Char)) (h : rest ≠ []) :
    lastSeg (s :: rest) = lastSeg rest := by
  cases rest with
  | nil => exact absurd rfl h
  | cons b t => simp [lastSeg, List.getLast?_cons_cons]

theorem dropLast_append_lastSeg (segs : List (List Char)) (h : segs ≠ []) :
    segs.dropLast ++ [lastSeg segs] = segs := by
  induction segs with
  | nil => exact absurd rfl h
  | cons a t ih =>
    cases t with
    | nil => rfl
    | cons b t2 =>
      rw [lastSeg_cons a (b :: t2) (by simp)]
      show a :: ((b :: t2).dropLast ++ [lastSeg (b :: t2)]) = a :: (b :: t2)
      rw [ih (by simp)]

theorem joinSegs_rev_head (segs : List (List Char))
    (hclean : ∀ g ∈ segs, CleanSeg g) (h : segs ≠ []) :
    ∃ c rest, (joinSegs segs).reverse = c :: rest ∧ (c == '/') = false := by
  induction segs with
  | nil => exact absurd rfl h
  | cons s t ih =>
    cases t with
    | nil =>
      obtain ⟨hne, hnos, _, _⟩ := hclean s (List.mem_cons_self s [])
      have hrevne : s.reverse ≠ [] := by
        intro hc; exact hne (by simpa using congrArg List.reverse hc)
      match hrev : s.reverse with
      | [] => exact absurd hrev hrevne
      | c :: rest =>
        refine ⟨c, rest, by simpa [joinSegs] using hrev, ?_⟩
        have hc_mem : c ∈ s := by
          rw [← List.mem_reverse, hrev]; exact List.mem_cons_self c rest
        have : c ≠ '/' := fun hcc => hnos (hcc ▸ hc_mem)
        simpa using this
    | cons b t2 =>
      obtain ⟨c, rest, hrev, hcf⟩ := ih
        (fun g hg => hclean g (List.mem_cons_of_mem s hg)) (by simp)
      refine ⟨c, rest ++ '/' :: s.reverse, ?_, hcf⟩
      rw [joinSegs_cons s (b :: t2) (by simp), List.reverse_append,
        List.reverse_cons, hrev]
      simp

theorem joinSegs_rev_takeWhile (segs : List (List Char))
    (hclean : ∀ g ∈ segs, CleanSeg g) (h : segs ≠ []) :
    ((joinSegs segs).reverse).takeWhile (fun c => c != '/')
      = (lastSeg segs).reverse := by
  induction segs with
  | nil => exact absurd rfl h
  | cons s t ih =>
    cases t with
    | nil =>
      obtain ⟨_, hnos, _, _⟩ := hclean s (List.mem_cons_self s [])
      show (s.reverse).takeWhile (fun c => c != '/') = (lastSeg [s]).reverse
      rw [lastSeg_single]
      apply takeWhile_of_all
      intro c hc
      have : c ∈ s := List.mem_reverse.mp hc
      have hne : c ≠ '/' := fun hcc => hnos (hcc ▸ this)
      simpa using hne
    | cons b t2 =>
      rw [joinSegs_cons s (b :: t2) (by simp), lastSeg_cons s (b :: t2) (by simp),
        List.reverse_append, List.reverse_cons, List.append_assoc]
      have hx : (('/' : Char) != '/') = false := by decide
      rw [List.singleton_append,
        takeWhile_append_stop (fun c => c != '/') '/' hx,
        ih (fun g hg => hclean g (List.mem_cons_of_mem s hg)) (by simp)]

theorem joinSegs_rev_dropWhile_len (segs : List (List Char))
    (hclean : ∀ g ∈ segs, CleanSeg g) (h : segs ≠ []) :
    (((joinSegs segs).reverse).dropWhile (fun c => c != '/')).length
      + (lastSeg segs).length = (joinSegs segs).length := by
  induction segs with
  | nil => exact absurd rfl h
  | cons s t ih =>
    cases t with
    | nil =>
      obtain ⟨_, hnos, _, _⟩ := hclean s (List.mem_cons_self s [])
      show ((s.reverse).dropWhile (fun c => c != '/')).length
        + (lastSeg [s]).length = s.length
      rw [lastSeg_single, dropWhile_of_all]
      · simp
      · intro c hc
        have : c ∈ s := List.mem_reverse.mp hc
        have hne : c ≠ '/' := fun hcc => hnos (hcc ▸ this)
        simpa using hne
    | cons b t2 =>
      rw [joinSegs_cons s (b :: t2) (by simp), lastSeg_cons s (b :: t2) (by simp)]
      have hx : (('/' : Char) != '/') = false := by decide
      rw [List.reverse_append, List.reverse_cons, List.append_assoc,
        List.singleton_append,
        dropWhile_append_stop (fun c => c != '/') '/' hx]
      have := ih (fun g hg => hclean g (List.mem_cons_of_mem s hg)) (by simp)
      simp only [List.length_append, List.length_cons, List.length_reverse] at this ⊢
      omega


theorem str_mk_ne_empty (l : List Char) (h : l ≠ []) : String.mk l ≠ "" := by
  intro hc
  exact h (congrArg String.data hc)

theorem rev_head_not_slash (last : List Char) (hne : last ≠ []) (hnos : '/' ∉ last) :
    ∃ c cr, last.reverse = c :: cr ∧ (c == '/') = false := by
  match hl : last.reverse with
  | [] =>
    exact absurd (by simpa using congrArg List.reverse hl) hne
  | c :: cr =>
    have hcmem : c ∈ last := by
      rw [← List.mem_reverse, hl]; exact List.mem_cons_self _ _
    have : c ≠ '/' := fun h => hnos (h ▸ hcmem)
    exact ⟨c, cr, rfl, by simpa using this⟩

theorem all_not_slash (last : List Char) (hnos : '/' ∉ last) :
    ∀ c ∈ last, ((fun c => c != '/') c) = true := by
  intro c hc
  have : c ≠ '/' := fun h => hnos (h ▸ hc)
  simpa using this

theorem dropSlashes_skip (last D : List Char) (hne : last ≠ []) (hnos : '/' ∉ last) :
    (last.reverse ++ D).dropWhile (fun c => c == '/') = last.reverse ++ D := by
  obtain ⟨c, cr, hl, hcf⟩ := rev_head_not_slash last hne hnos
  rw [hl, List.cons_append, List.dropWhile_cons, hcf]
  simp

theorem jsBasenameL_noslash (s : List Char) (hne : s ≠ []) (hnos : '/' ∉ s) :
    jsBasenameL s = s := by
  unfold jsBasenameL
  have h1 : (s.reverse).dropWhile (fun c => c == '/') = s.reverse := by
    have := dropSlashes_skip s [] hne hnos
    simpa using this
  rw [h1, takeWhile_of_all _ _ ?_, List.reverse_reverse]
  intro c hc
  exact all_not_slash s hnos c (List.mem_reverse.mp hc)

theorem jsBasenameL_split (D last : List Char) (hne : last ≠ []) (hnos : '/' ∉ last) :
    jsBasenameL (D ++ '/' :: last) = last := by
  unfold jsBasenameL
  have hrev : (D ++ '/' :: last).reverse = last.reverse ++ '/' :: D.reverse := by
    rw [List.reverse_append, List.reverse_cons, List.append_assoc,
      List.singleton_append]
  rw [hrev, dropSlashes_skip last ('/' :: D.reverse) hne hnos,
    takeWhile_append_stop (fun c => c != '/') '/' (by decide),
    takeWhile_of_all _ _ (fun c hc => all_not_slash last hnos c (List.mem_reverse.mp hc)),
    List.reverse_reverse]

theorem jsDirnameL_noslash (s : List Char) (hne : s ≠ []) (hnos : '/' ∉ s) :
    jsDirnameL s = ['.'] := by
  match s, hne with
  | d :: ds, _ =>
    have hd : d ≠ '/' := fun h => hnos (h ▸ List.mem_cons_self d ds)
    simp only [jsDirnameL]
    have h1 : ((d :: ds).reverse).dropWhile (fun c => c == '/') = (d :: ds).reverse := by
      have := dropSlashes_skip (d :: ds) [] (by simp) hnos
      simpa using this
    rw [h1, dropWhile_of_all _ _
      (fun c hc => all_not_slash (d :: ds) hnos c (List.mem_reverse.mp hc))]
    simp [hd]

theorem jsDirnameL_split (d : Char) (ds last : List Char)
    (hd : d ≠ '/') (hne : last ≠ []) (hnos : '/' ∉ last) :
    jsDirnameL ((d :: ds) ++ '/' :: last) = d :: ds := by
  rw [List.cons_append]
  simp only [jsDirnameL]
  have hrev : ((d :: (ds ++ '/' :: last)).reverse)
      = last.reverse ++ '/' :: (d :: ds).reverse := by
    rw [← List.cons_append, List.reverse_append, List.reverse_cons,
      List.append_assoc, List.singleton_append]
  rw [hrev, dropSlashes_skip last ('/' :: (d :: ds).reverse) hne hnos,
    dropWhile_append_stop (fun c => c != '/') '/' (by decide),
    dropWhile_of_all _ _
      (fun c hc => all_not_slash last hnos c (List.mem_reverse.mp hc))]
  have hlen : (([] ++ '/' :: (d :: ds).reverse) : List Char).length = ds.length + 2 := by
    simp
  rw [hlen, if_neg (by omega), if_neg (fun hand => hd hand.1), ← List.cons_append]
  exact List.take_left' (by simp)

theorem splitOnPred_of_none (p : Char → Bool) :
    ∀ l : List Char, (∀ c ∈ l, p c = false) → splitOnPred p l = [l] := by
  intro l h
  induction l with
  | nil => rfl
  | cons a l ih =>
    rw [splitOnPred, h a (List.mem_cons_self a l)]
    simp only [Bool.false_eq_true, if_false]
    rw [ih (fun c hc => h c (List.mem_cons_of_mem a hc))]

theorem splitOnPred_append (p : Char → Bool) (l2 hd : List Char)
    (tl : List (List Char)) (h2 : splitOnPred p l2 = hd :: tl) :
    ∀ l1 : List Char, (∀ c ∈ l1, p c = false) →
    splitOnPred p (l1 ++ l2) = (l1 ++ hd) :: tl := by
  intro l1 h1
  induction l1 with
  | nil => simpa using h2
  | cons a l1 ih =>
    rw [List.cons_append, splitOnPred, h1 a (List.mem_cons_self a l1)]
    simp only [Bool.false_eq_true, if_false]
    rw [ih (fun c hc => h1 c (List.mem_cons_of_mem a hc))]
    simp

theorem splitOnPred_sep (p : Char → Bool) (x : Char) (hx : p x = true)
    (l : List Char) : splitOnPred p (x :: l) = [] :: splitOnPred p l := by
  rw [splitOnPred, hx]
  simp

theorem splitOnChar_joinSegs (segs : List (List Char))
    (hclean : ∀ g ∈ segs, g ≠ [] ∧ '/' ∉ g) (hne : segs ≠ []) :
    splitOnChar '/' (joinSegs segs) = segs := by
  induction segs with
  | nil => exact absurd rfl hne
  | cons s t ih =>
    obtain ⟨hsne, hsnos⟩ := hclean s (List.mem_cons_self s t)
    have hall : ∀ c ∈ s, ((fun c => c == '/') c) = false := by
      intro c hc
      have : c ≠ '/' := fun h => hsnos (h ▸ hc)
      simpa using this
    cases t with
    | nil =>
      show splitOnPred (fun c => c == '/') (joinSegs [s]) = [s]
      exact splitOnPred_of_none _ s hall
    | cons b t2 =>
      rw [joinSegs_cons s (b :: t2) (by simp)]
      have hrest := ih (fun g hg => hclean g (List.mem_cons_of_mem s hg)) (by simp)
      match hsp : splitOnChar '/' (joinSegs (b :: t2)) with
      | [] => rw [hsp] at hrest; exact absurd hrest.symm (by simp)
      | r0 :: rtail =>
        have hsep : splitOnPred (fun c => c == '/') ('/' :: joinSegs (b :: t2))
            = [] :: r0 :: rtail := by
          rw [splitOnPred_sep _ '/' (by decide)]
          exact congrArg ([] :: ·) hsp
        show splitOnPred (fun c => c == '/') (s ++ '/' :: joinSegs (b :: t2)) = _
        rw [splitOnPred_append _ _ [] (r0 :: rtail) hsep s hall,
          List.append_nil]
        rw [hsp] at hrest
        rw [hrest]

theorem normalizeSegs_no_dots :
    ∀ (segs acc : List (List Char)),
    (∀ g ∈ segs, g ≠ ['.'] ∧ g ≠ ['.', '.']) →
    normalizeSegs segs acc = acc.reverse ++ segs := by
  intro segs
  induction segs with
  | nil => intro acc _; simp [normalizeSegs]
  | cons s t ih =>
    intro acc h
    obtain ⟨hdot, hdots⟩ := h s (List.mem_cons_self s t)
    show (if s = ['.'] then normalizeSegs t acc
      else if s = ['.', '.'] then
        (match acc with
          | [] => normalizeSegs t [['.', '.']]
          | top :: t2 =>
            if top = ['.', '.'] then normalizeSegs t (['.', '.'] :: acc)
            else normalizeSegs t t2)
      else normalizeSegs t (s :: acc)) = acc.reverse ++ s :: t
    rw [if_neg hdot, if_neg hdots,
      ih (s :: acc) (fun g hg => h g (List.mem_cons_of_mem s hg))]
    simp

theorem filter_ne_nil_of_all (segs : List (List Char)) (h : ∀ g ∈ segs, g ≠ []) :
    segs.filter (fun g => g ≠ []) = segs := by
  induction segs with
  | nil => rfl
  | cons s t ih =>
    rw [List.filter_cons, if_pos (by simpa using h s (List.mem_cons_self s t)),
      ih (fun g hg => h g (List.mem_cons_of_mem s hg))]

theorem normalizeSegs_dot (rest acc : List (List Char)) :
    normalizeSegs (['.'] :: rest) acc = normalizeSegs rest acc := by
  show (if (['.'] : List Char) = ['.'] then normalizeSegs rest acc
    else if (['.'] : List Char) = ['.', '.'] then
      (match acc with
        | [] => normalizeSegs rest [['.', '.']]
        | top :: t2 =>
          if top = ['.', '.'] then normalizeSegs rest (['.', '.'] :: acc)
          else normalizeSegs rest t2)
    else normalizeSegs rest (['.'] :: acc)) = normalizeSegs rest acc
  rw [if_pos rfl]

theorem joinSegs_head (segs : List (List Char))
    (hclean : ∀ g ∈ segs, CleanSeg g) (hne : segs ≠ []) :
    ∃ d ds, joinSegs segs = d :: ds ∧ d ≠ '/' := by
  cases segs with
  | nil => exact absurd rfl hne
  | cons s tS =>
    obtain ⟨hsne, hsnos, _, _⟩ := hclean s (List.mem_cons_self s tS)
    cases s with
    | nil => exact absurd rfl hsne
    | cons d ds' =>
      have hd : d ≠ '/' := fun h => hsnos (h ▸ List.mem_cons_self d ds')
      cases tS with
      | nil => exact ⟨d, ds', rfl, hd⟩
      | cons b t2 =>
        refine ⟨d, ds' ++ '/' :: joinSegs (b :: t2), ?_, hd⟩
        rw [joinSegs_cons _ _ (by simp)]
        simp

theorem joinSegs_ne_nil (segs : List (List Char))
    (hclean : ∀ g ∈ segs, CleanSeg g) (hne : segs ≠ []) :
    joinSegs segs ≠ [] := by
  obtain ⟨d, ds, hds, _⟩ := joinSegs_head segs hclean hne
  rw [hds]
  simp

/-- `path.join(a, b)` for a slash-joined clean `a` and a clean final
component `b` is plain concatenation with a separator. -/
theorem jsJoinParts_two_clean (a b : List Char) (segsA : List (List Char))
    (ha : a = joinSegs segsA) (hAne : segsA ≠ [])
    (hAcl : ∀ g ∈ segsA, CleanSeg g)
    (hb : b ≠ []) (hbnos : '/' ∉ b) (hbnd1 : b ≠ ['.']) (hbnd2 : b ≠ ['.', '.']) :
    jsJoinParts [String.mk a, String.mk b] = String.mk (a ++ '/' :: b) := by
  have hane : a ≠ [] := ha ▸ joinSegs_ne_nil segsA hAcl hAne
  have hfilter : ([String.mk a, String.mk b].filter (fun p => p ≠ ""))
      = [String.mk a, String.mk b] := by
    simp [List.filter_cons, str_mk_ne_empty a hane, str_mk_ne_empty b hb]
  have hsegsB : ∀ g ∈ segsA ++ [b], CleanSeg g := by
    intro g hg
    rcases List.mem_append.mp hg with hg1 | hg2
    · exact hAcl g hg1
    · rcases List.mem_singleton.mp hg2 with rfl
      exact ⟨hb, hbnos, hbnd1, hbnd2⟩
  have hjoined : joinSegs [a, b] = joinSegs (segsA ++ [b]) := by
    rw [ha, joinSegs_append_last segsA b hAne]
    rfl
  unfold jsJoinParts
  rw [hfilter]
  show (let joined := joinSegs [(String.mk a).data, (String.mk b).data]
    let segs := (splitOnChar '/' joined).filter (fun g => g ≠ [])
    let norm := normalizeSegs segs []
    if norm = [] then "." else String.mk (joinSegs norm)) = _
  simp only
  have hdata : joinSegs [(String.mk a).data, (String.mk b).data] = joinSegs [a, b] := rfl
  rw [hdata, hjoined,
    splitOnChar_joinSegs (segsA ++ [b])
      (fun g hg => ⟨(hsegsB g hg).1, (hsegsB g hg).2.1⟩) (by simp),
    filter_ne_nil_of_all _ (fun g hg => (hsegsB g hg).1),
    normalizeSegs_no_dots _ [] (fun g hg => ⟨(hsegsB g hg).2.2.1, (hsegsB g hg).2.2.2⟩)]
  rw [if_neg (by simp)]
  rw [show ([].reverse ++ (segsA ++ [b]) : List (List Char)) = segsA ++ [b] from by simp,
    joinSegs_append_last segsA b hAne, ← ha]

/-- `path.join(".", b)` for a clean component `b` is just `b`. -/
theorem jsJoinParts_dot (b : List Char)
    (hb : b ≠ []) (hbnos : '/' ∉ b) (hbnd1 : b ≠ ['.']) (hbnd2 : b ≠ ['.', '.']) :
    jsJoinParts [".", String.mk b] = String.mk b := by
  have hfilter : (([".", String.mk b] : List String).filter (fun p => p ≠ ""))
      = [".", String.mk b] := by
    simp [List.filter_cons, str_mk_ne_empty b hb]
  unfold jsJoinParts
  rw [hfilter]
  show (let joined := joinSegs [("." : String).data, (String.mk b).data]
    let segs := (splitOnChar '/' joined).filter (fun g => g ≠ [])
    let norm := normalizeSegs segs []
    if norm = [] then "." else String.mk (joinSegs norm)) = _
  simp only
  have hdata : joinSegs [("." : String).data, (String.mk b).data]
      = joinSegs [['.'], b] := rfl
  rw [hdata,
    splitOnChar_joinSegs [['.'], b]
      (fun g hg => by
        rcases List.mem_cons.mp hg with rfl | hg2
        · exact ⟨by simp, by simp⟩
        · rcases List.mem_singleton.mp hg2 with rfl
          exact ⟨hb, hbnos⟩) (by simp),
    filter_ne_nil_of_all _ (fun g hg => by
      rcases List.mem_cons.mp hg with rfl | hg2
      · simp
      · rcases List.mem_singleton.mp hg2 with rfl; exact hb),
    normalizeSegs_dot,
    normalizeSegs_no_dots [b] [] (fun g hg => by
      rcases List.mem_singleton.mp hg with rfl; exact ⟨hbnd1, hbnd2⟩)]
  rw [if_neg (by simp)]
  rfl

/-- C10 (amended): for every TOC entry whose url is `/` followed by a
clean relative path (nonempty slash-free segments, none `.` or `..`),
the README link target equals the artifact's output-directory-relative
path; by `c10_counterexample` this fails for the site-root entry `/`,
whose link is `.md` while the artifact name is derived from the
hostname. -/
theorem c10_index_links (segs : List (List Char)) (t : String) (lvl : Nat)
    (host : String) (hne : segs ≠ []) (hclean : ∀ g ∈ segs, CleanSeg g) :
    indexLink ⟨t, String.mk ('/' :: joinSegs segs), lvl⟩
      = artifactRelPath (String.mk ('/' :: joinSegs segs)) host := by
  have hmd : (".md" : String).data = ['.', 'm', 'd'] := rfl
  have hstrip : stripLeadingSlash (String.mk ('/' :: joinSegs segs))
      = String.mk (joinSegs segs) := rfl
  have hrelne : String.mk (joinSegs segs) ≠ "" :=
    str_mk_ne_empty _ (joinSegs_ne_nil segs hclean hne)
  unfold indexLink artifactRelPath artifactFileName
  rw [hstrip]
  simp only [if_neg hrelne]
  by_cases hone : segs.length = 1
  · obtain ⟨s, rfl⟩ : ∃ s, segs = [s] := by
      cases segs with
      | nil => simp at hone
      | cons a tS =>
        cases tS with
        | nil => exact ⟨a, rfl⟩
        | cons b t2 => simp at hone
    obtain ⟨hsne, hsnos, hsd1, hsd2⟩ := hclean s (List.mem_cons_self s [])
    have hjoin : joinSegs [s] = s := rfl
    rw [hjoin]
    have hbase : jsBasename (String.mk s) = String.mk s := by
      unfold jsBasename
      rw [show (String.mk s).data = s from rfl, jsBasenameL_noslash s hsne hsnos]
    have hdir : jsDirname (String.mk s) = "." := by
      unfold jsDirname
      rw [show (String.mk s).data = s from rfl, jsDirnameL_noslash s hsne hsnos]
    have happend : String.mk s ++ ".md" = String.mk (s ++ (".md").data) := rfl
    rw [hbase, hdir, happend]
    have hmdne : s ++ (".md").data ≠ [] := by
      intro hc; exact hsne (by simpa using hc)
    have hmdnos : '/' ∉ s ++ (".md").data := by
      intro hc
      rcases List.mem_append.mp hc with hc1 | hc2
      · exact hsnos hc1
      · rw [hmd] at hc2; simp at hc2
    have hlen : (s ++ (".md").data).length = s.length + 3 := by
      rw [hmd]; simp
    have hnd1 : s ++ (".md").data ≠ ['.'] := by
      intro hc; have := congrArg List.length hc; rw [hlen] at this
      simp only [List.length_cons, List.length_nil] at this; omega
    have hnd2 : s ++ (".md").data ≠ ['.', '.'] := by
      intro hc; have := congrArg List.length hc; rw [hlen] at this
      simp only [List.length_cons, List.length_nil] at this; omega
    exact (jsJoinParts_dot (s ++ (".md").data) hmdne hmdnos hnd1 hnd2).symm
  · have hlen2 : 2 ≤ segs.length := by
      have := List.length_pos.mpr hne
      omega
    have hinit_ne : segs.dropLast ≠ [] := by
      intro hc
      have := congrArg List.length hc
      rw [List.length_dropLast] at this
      simp at this
      omega
    have hlast_mem : lastSeg segs ∈ segs := by
      have h0 := dropLast_append_lastSeg segs hne
      have hmem : lastSeg segs ∈ segs.dropLast ++ [lastSeg segs] :=
        List.mem_append_right _ (List.mem_singleton.mpr rfl)
      rwa [h0] at hmem
    obtain ⟨hlne, hlnos, hld1, hld2⟩ := hclean _ hlast_mem
    have hinit_clean : ∀ g ∈ segs.dropLast, CleanSeg g :=
      fun g hg => hclean g (List.dropLast_subset segs hg)
    have hdecomp : joinSegs segs = joinSegs segs.dropLast ++ '/' :: lastSeg segs := by
      have h0 := dropLast_append_lastSeg segs hne
      have h1 := joinSegs_append_last segs.dropLast (lastSeg segs) hinit_ne
      rw [h0] at h1
      exact h1
    obtain ⟨d, ds, hdds, hdns⟩ := joinSegs_head segs.dropLast hinit_clean hinit_ne
    have hbase : jsBasename (String.mk (joinSegs segs))
        = String.mk (lastSeg segs) := by
      unfold jsBasename
      rw [show (String.mk (joinSegs segs)).data = joinSegs segs from rfl,
        hdecomp, jsBasenameL_split _ _ hlne hlnos]
    have hdir : jsDirname (String.mk (joinSegs segs))
        = String.mk (joinSegs segs.dropLast) := by
      unfold jsDirname
      rw [show (String.mk (joinSegs segs)).data = joinSegs segs from rfl,
        hdecomp, hdds, jsDirnameL_split d ds (lastSeg segs) hdns hlne hlnos, ← hdds]
    have happend2 : String.mk (lastSeg segs) ++ ".md"
        = String.mk (lastSeg segs ++ (".md").data) := rfl
    have happend3 : String.mk (joinSegs segs) ++ ".md"
        = String.mk (joinSegs segs ++ (".md").data) := rfl
    rw [hbase, hdir, happend2, happend3]
    have hmdne : lastSeg segs ++ (".md").data ≠ [] := by
      intro hc; exact hlne (by simpa using hc)
    have hmdnos : '/' ∉ lastSeg segs ++ (".md").data := by
      intro hc
      rcases List.mem_append.mp hc with hc1 | hc2
      · exact hlnos hc1
      · rw [hmd] at hc2; simp at hc2
    have hlenmd : (lastSeg segs ++ (".md").data).length
        = (lastSeg segs).length + 3 := by
      rw [hmd]; simp
    have hnd1 : lastSeg segs ++ (".md").data ≠ ['.'] := by
      intro hc; have := congrArg List.length hc; rw [hlenmd] at this
      simp only [List.length_cons, List.length_nil] at this; omega
    have hnd2 : lastSeg segs ++ (".md").data ≠ ['.', '.'] := by
      intro hc; have := congrArg List.length hc; rw [hlenmd] at this
      simp only [List.length_cons, List.length_nil] at this; omega
    rw [jsJoinParts_two_clean (joinSegs segs.dropLast)
      (lastSeg segs ++ (".md").data) segs.dropLast rfl hinit_ne hinit_clean
      hmdne hmdnos hnd1 hnd2]
    rw [hdecomp]
    congr 1
    simp

/-- Witness for C10 at the two-level url `/g/i`. -/
theorem c10_index_links_witness :
    indexLink ⟨"Intro", String.mk ('/' :: joinSegs [['g'], ['i']]), 2⟩
      = artifactRelPath (String.mk ('/' :: joinSegs [['g'], ['i']])) "example.com" :=
  c10_index_links [['g'], ['i']] "Intro" 2 "example.com" (by simp)
    (by
      intro g hg
      rcases List.mem_cons.mp hg with rfl | hg2
      · exact ⟨by simp, by simp, by simp, by simp⟩
      · rcases List.mem_singleton.mp hg2 with rfl
        exact ⟨by simp, by simp, by simp, by simp⟩)

/-! ### Navigation resilience of `downloadGitbook` (lines 489-555)

The document engine's `page.goto` outcomes are oracle fields: `none`
means the navigation succeeded, `some m` that it threw an error whose
`message` is `m`. -/

/-- The error classification of the root navigation (lines 493-502);
the final `/401 Authorization Required/i` regex test is modelled as a
case-insensitive substring check. -/
def isProtocolOrAuthError (m : String) : Bool :=
  strIncludes m "ERR_INVALID_AUTH_CREDENTIALS"
  || strIncludes m "net::ERR_INVALID_AUTH_CREDENTIALS"
  || strIncludes m "ERR_SSL_PROTOCOL_ERROR"
  || strIncludes m "ERR_CERT"
  || strIncludes m "net::ERR_CERT"
  || strIncludes m "ERR_CONNECTION_REFUSED"
  || strIncludes m "ERR_CONNECTION_RESET"
  || strIncludes m "401"
  || strIncludes (lowerStr m) "401 authorization required"

/-- `/^https?:\/\//i.test(url)`. -/
def isHttpProtocolUrl (url : String) : Bool :=
  leadsWith ("http://").data (lowerStr url).data
  || leadsWith ("https://").data (lowerStr url).data

/-- The protocol-swapped retry URL (lines 506-510): `https` and `http`
are exchanged; the `startsWith` guards are case-sensitive, so the
case-insensitive replace can only ever see an exact lowercase match. -/
def altUrlOf (url : String) : String :=
  if leadsWith ("https://").data url.data then
    String.mk (("http://").data ++ url.data.drop 8)
  else if leadsWith ("http://").data url.data then
    String.mk (("https://").data ++ url.data.drop 7)
  else url

/-- `encodeURIComponent`: unreserved ASCII passes, everything else is
percent-encoded per UTF-8 byte with uppercase hex digits. -/
def utf8Bytes (c : Char) : List Nat :=
  let n := c.toNat
  if n < 128 then [n]
  else if n < 2048 then [192 + n / 64, 128 + n % 64]
  else if n < 65536 then [224 + n / 4096, 128 + (n / 64) % 64, 128 + n % 64]
  else [240 + n / 262144, 128 + (n / 4096) % 64, 128 + (n / 64) % 64, 128 + n % 64]

def hexDigit (n : Nat) : Char :=
  if n < 10 then Char.ofNat (48 + n) else Char.ofNat (55 + n)

def isUnreservedURI (c : Char) : Bool :=
  c.isAlpha || c.isDigit
    || c ∈ ['-', '_', '.', '!', '~', '*', '(', ')'] || c.toNat = 39

def encodeURIComponent (s : String) : String :=
  String.mk (s.data.foldr (fun c acc =>
    if isUnreservedURI c then c :: acc
    else (utf8Bytes c).foldr
      (fun b acc2 => '%' :: hexDigit (b / 16) :: hexDigit (b % 16) :: acc2) acc) [])

/-- `url.match(/^([a-z]+:\/{2})/i)`: the scheme with `://`, else `""`
(lines 531-532). -/
def protocolOf (url : String) : String :=
  let letters := url.data.takeWhile (fun c => c.isAlpha)
  if letters ≠ [] ∧ leadsWith [':', '/', '/'] (url.data.drop letters.length) then
    String.mk (letters ++ [':', '/', '/'])
  else ""

/-- `url.replace(/^https?:\/\//i, "")` (line 533). -/
def urlWithoutProtocol (url : String) : String :=
  if leadsWith ("https://").data (lowerStr url).data then String.mk (url.data.drop 8)
  else if leadsWith ("http://").data (lowerStr url).data then String.mk (url.data.drop 7)
  else url

/-- The credentials-embedded URL (lines 530-536). -/
def urlWithCreds (url username password : String) : String :=
  protocolOf url ++ encodeURIComponent username ++ ":"
    ++ encodeURIComponent password ++ "@" ++ urlWithoutProtocol url

structure RootNavEnv where
  url : String
  auth : Option (String × String)
  gotoErr : Option String      -- initial page.goto outcome
  altGotoErr : Option String   -- protocol-swap retry outcome (when attempted)
  credGotoErr : Option String  -- embedded-credentials retry outcome (when attempted)

/-- `auth && auth.username && auth.password` (empty strings are falsy). -/
def hasAuth (env : RootNavEnv) : Bool :=
  match env.auth with
  | some (u, p) => u ≠ "" && p ≠ ""
  | none => false

/-- The root navigation with its retry ladder (lines 489-555), returning
the effective URL used by all subsequent processing.  Note that after a
successful protocol swap the code still enters the credentials block:
with no credentials available it throws the original error even though
the swap succeeded (line 548), and with credentials it performs the
embedded-credentials navigation on the swapped URL. -/
def navRoot (env : RootNavEnv) : Except String String :=
  match env.gotoErr with
  | none => Except.ok env.url
  | some m =>
    if isProtocolOrAuthError m && isHttpProtocolUrl env.url then
      match env.altGotoErr with
      | none =>
        -- swap succeeded, url := altUrl; fall through to the credentials block
        if hasAuth env then
          match env.credGotoErr with
          | none =>
            match env.auth with
            | some (u, p) => Except.ok (urlWithCreds (altUrlOf env.url) u p)
            | none => Except.error m
          | some _ => Except.error m
        else Except.error m
      | some _ =>
        -- swap failed: without credentials the original error is thrown
        -- inside the catch; with credentials the embedded retry runs on
        -- the unswapped url
        if hasAuth env then
          match env.credGotoErr with
          | none =>
            match env.auth with
            | some (u, p) => Except.ok (urlWithCreds env.url u p)
            | none => Except.error m
          | some _ => Except.error m
        else Except.error m
    else Except.error m

/-! ### `normalizeTables` (lines 763-787)

The separator-line regex
`/^\s*\|?\s*:?-{3,}\s*(\|\s*:?-{3,}\s*)*\|?\s*$/` is decided by
splitting on `|`: an optional leading and trailing all-whitespace part
(the text around the optional outer pipes) and at least one dash part
(`\s*:?-{3,}\s*`) in between. -/

def isWsPart (l : List Char) : Bool := l.all (fun c => c.isWhitespace)

def isDashPart (l : List Char) : Bool :=
  let l1 := l.dropWhile (fun c => c.isWhitespace)
  let l2 := match l1 with
            | ':' :: rest => rest
            | _ => l1
  let dashes := l2.takeWhile (fun c => c == '-')
  let rest := l2.dropWhile (fun c => c == '-')
  decide (3 ≤ dashes.length) && rest.all (fun c => c.isWhitespace)

def isSepLine (l : List Char) : Bool :=
  let ps := splitOnChar '|' l
  let ps := match ps with
            | a :: b :: rest => if isWsPart a then b :: rest else a :: b :: rest
            | _ => ps
  let ps := if 2 ≤ ps.length ∧ isWsPart (ps.getLastD []) then ps.dropLast else ps
  decide (ps ≠ []) && ps.all isDashPart

/-- `parts.join(sep)` on character lists for an arbitrary separator. -/
def joinSegsWith (sep : Char) : List (List Char) → List Char
  | [] => []
  | [s] => s
  | s :: rest => s ++ sep :: joinSegsWith sep rest

/-- `" --- "` repeated per column, pipe-joined (lines 779-781). -/
def sepLineOf (cols : Nat) : List Char :=
  '|' :: (joinSegsWith '|' (List.replicate cols (" --- ").data) ++ ['|'])

/-- The line loop of `normalizeTables`: after emitting a line that
contains a pipe, if the next line also contains a pipe but is not a
valid separator, a synthetic separator with the current line's column
count is inserted. -/
def normalizeTablesGo : List (List Char) → List (List Char)
  | [] => []
  | [l] => [l]
  | l1 :: l2 :: rest =>
    if l1.contains '|' ∧ l2.contains '|' ∧ ¬ (isSepLine l2 = true) then
      let cols := (splitOnChar '|' l1).length - 1
      if 0 < cols then l1 :: sepLineOf cols :: normalizeTablesGo (l2 :: rest)
      else l1 :: normalizeTablesGo (l2 :: rest)
    else l1 :: normalizeTablesGo (l2 :: rest)

/-- `normalizeTables(markdown)` (lines 764-787). -/
def normalizeTables (markdown : String) : String :=
  String.mk (joinSegsWith '\n' (normalizeTablesGo (splitOnChar '\n' markdown.data)))

/-! ### `processItem` (lines 790-907)

The per-page pipeline.  Oracle fields stand for the external effects:
`newPageErr` for `browser.newPage()`, `gotoErr`/`altGotoErr` for the
two navigations, `extractErr` for a throw from `extractPageContent`
(`page.evaluate`), `turndownMd` for the turndown conversion result,
`imagesResult` for `processImages`, `ensureDirErr` for
`ensureDirectory`, `writeErr` for `writeFile`.  `page.authenticate` and
`waitForSelector` failures are swallowed by the code and are therefore
not modelled. -/

deriving instance DecidableEq for Except

structure ItemEnv where
  newPageErr : Option String
  gotoErr : Option String
  altGotoErr : Option String
  extractErr : Option String
  turndownMd : String
  downloadImages : Bool
  imagesResult : Except String String
  ensureDirErr : Option String
  writeErr : Option String
deriving DecidableEq, Repr

structure ItemOutcome where
  thrown : Option String        -- an uncaught exception propagating to the worker
  opened : Bool                 -- a page handle was created
  closed : Bool                 -- page.close() was reached
  wrote : Option String         -- artifact path (output-dir relative) written
  loggedNavError : Option String  -- the message logged on a navigation skip
  writeFailed : Bool            -- writeFile threw (caught and logged)
deriving DecidableEq, Repr

/-- The error classification of the per-page navigation (lines
816-824); unlike the root classification it has no `401` cases. -/
def isProtocolErrorItem (m : String) : Bool :=
  strIncludes m "ERR_INVALID_AUTH_CREDENTIALS"
  || strIncludes m "net::ERR_INVALID_AUTH_CREDENTIALS"
  || strIncludes m "ERR_SSL_PROTOCOL_ERROR"
  || strIncludes m "ERR_CERT"
  || strIncludes m "net::ERR_CERT"
  || strIncludes m "ERR_CONNECTION_REFUSED"
  || strIncludes m "ERR_CONNECTION_RESET"

/-- The markdown the page ends up with before the empty check: the
turndown output, transformed by `processImages` when enabled (a throw
there is caught and leaves the markdown unchanged), then
`normalizeTables`. -/
def itemMarkdown (env : ItemEnv) : String :=
  let md := env.turndownMd
  let md := if env.downloadImages then
      (match env.imagesResult with
        | Except.ok md2 => md2
        | Except.error _ => md)
    else md
  normalizeTables md

/-- `processItem` (lines 790-907). `itemUrl` is the TOC entry's url,
`pageUrl` the absolute URL built from it, `hostname` the site host. -/
def processItem (env : ItemEnv) (itemUrl pageUrl hostname : String) : ItemOutcome :=
  match env.newPageErr with
  | some m => ⟨some m, false, false, none, none, false⟩
  | none =>
    -- page.authenticate: wrapped in try/catch, failures ignored
    let navFailed : Option String :=
      match env.gotoErr with
      | none => none
      | some m =>
        if isProtocolErrorItem m && isHttpProtocolUrl pageUrl then
          match env.altGotoErr with
          | none => none            -- retry succeeded; pageUrl := altUrl
          | some _ => some m        -- log the original err.message and skip
        else some m
    match navFailed with
    | some m => ⟨none, true, true, none, some m, false⟩
    | none =>
      -- waitForSelector("main"): .catch(() => {}), ignored
      match env.extractErr with
      | some m => ⟨some m, true, false, none, none, false⟩
      | none =>
        let md := itemMarkdown env
        if jsTrim md = "" then ⟨none, true, true, none, none, false⟩
        else
          let rel := stripLeadingSlash itemUrl
          let fileDir := jsDirname rel
          let fileName := if rel = "" then hostname ++ ".md"
                          else jsBasename rel ++ ".md"
          match env.ensureDirErr with
          | some m => ⟨some m, true, false, none, none, false⟩
          | none =>
            match env.writeErr with
            | some _ => ⟨none, true, true, none, none, true⟩
            | none => ⟨none, true, true, some (jsJoinParts [fileDir, fileName]),
                none, false⟩

/-! ### The worker pool as executed (Promise semantics)

Each worker awaits `processItem` over its stripe; an uncaught throw
rejects the worker's promise and `Promise.all` rejects the pool. -/

def runWorkerExcept (o : Nat → ItemOutcome) (workers total idx : Nat) :
    Except String (List Nat) :=
  if h : idx < total ∧ 0 < workers then
    match (o idx).thrown with
    | some m => Except.error m
    | none =>
      match runWorkerExcept o workers total (idx + workers) with
      | Except.error m => Except.error m
      | Except.ok l => Except.ok (idx :: l)
  else Except.ok []
termination_by total - idx
decreasing_by omega

def exceptAll : List (Except String (List Nat)) → Except String (List (List Nat))
  | [] => Except.ok []
  | Except.error m :: _ => Except.error m
  | Except.ok v :: es =>
    match exceptAll es with
    | Except.error m => Except.error m
    | Except.ok vs => Except.ok (v :: vs)

/-- `Promise.all` over the worker pool (lines 909-925). -/
def runPool (o : Nat → ItemOutcome) (concurrency total : Nat) :
    Except String (List (List Nat)) :=
  let workers := Nat.min concurrency total
  exceptAll ((List.range workers).map (fun w => runWorkerExcept o workers total w))

theorem runWorkerExcept_ok (o : Nat → ItemOutcome) (workers total : Nat)
    (hok : ∀ i, i < total → (o i).thrown = none) :
    ∀ idx, runWorkerExcept o workers total idx
      = Except.ok (workerLoop workers total idx) := by
  intro idx
  induction idx using workerLoop.induct workers total with
  | case1 idx h ih =>
    rw [runWorkerExcept, workerLoop, dif_pos h, dif_pos h, hok idx h.1, ih]
  | case2 idx h =>
    rw [runWorkerExcept, workerLoop, dif_neg h, dif_neg h]

theorem exceptAll_map_ok (f : Nat → Except String (List Nat)) (g : Nat → List Nat)
    (l : List Nat) (hf : ∀ x ∈ l, f x = Except.ok (g x)) :
    exceptAll (l.map f) = Except.ok (l.map g) := by
  induction l with
  | nil => rfl
  | cons a t ih =>
    rw [List.map_cons, List.map_cons, hf a (List.mem_cons_self a t),
      exceptAll, ih (fun x hx => hf x (List.mem_cons_of_mem a hx))]

/-- A per-page environment in which content extraction throws. -/
def envExtractThrow : ItemEnv :=
  ⟨none, none, none, some "boom", "hello", false, Except.ok "hello", none, none⟩

/-- A per-page environment in which every step succeeds. -/
def envGoodItem : ItemEnv :=
  ⟨none, none, none, none, "hello", false, Except.ok "hello", none, none⟩

/-- Page 1 of three fails during content extraction. -/
def itemOutcomes1 : Nat → ItemOutcome := fun i =>
  processItem (if i = 1 then envExtractThrow else envGoodItem)
    "/a" "http://host/a" "host"

/-- C3 (counterexample): a failure thrown while processing a page (here
`extractPageContent`) is not caught: `processItem` propagates it and
the pool's `Promise.all` rejects, aborting the run — contradicting the
claim that any fetch-or-processing failure is caught and skips only
that page. -/
theorem c3_counterexample :
    (processItem envExtractThrow "/a" "http://host/a" "host").thrown = some "boom"
    ∧ runPool itemOutcomes1 1 3 = Except.error "boom"
    ∧ (∀ ls, runPool itemOutcomes1 1 3 ≠ Except.ok ls) := by
  have h0 : (itemOutcomes1 0).thrown = none := by decide
  have h1 : (itemOutcomes1 1).thrown = some "boom" := by decide
  have hw : runWorkerExcept itemOutcomes1 1 3 0 = Except.error "boom" := by
    rw [runWorkerExcept, dif_pos (by omega), h0]
    show (match runWorkerExcept itemOutcomes1 1 3 1 with
      | Except.error m => Except.error m
      | Except.ok l => Except.ok (0 :: l)) = Except.error "boom"
    rw [runWorkerExcept, dif_pos (by omega), h1]
  have hpool : runPool itemOutcomes1 1 3 = Except.error "boom" := by
    show exceptAll ((List.range (Nat.min 1 3)).map
      (fun w => runWorkerExcept itemOutcomes1 (Nat.min 1 3) 3 w)) = Except.error "boom"
    rw [show Nat.min 1 3 = 1 from rfl]
    rw [show List.range 1 = [0] from rfl, List.map_cons, List.map_nil, hw]
    rfl
  exact ⟨by decide, hpool, fun ls hc => by rw [hpool] at hc; exact Except.noConfusion hc⟩

/-- C3 (amended): only navigation (`page.goto`) failures are caught and
turned into a per-page skip; failures in image processing, table
normalisation and the file write are also absorbed.  When the steps
outside any `try`/`catch` — `browser.newPage`, `extractPageContent`,
`ensureDirectory` — succeed, no error escapes `processItem`, whatever
the navigation outcome; and a pool whose pages all complete without an
uncaught throw finishes with the full striped schedule. -/
theorem c3_fetch_failures_skipped :
    (∀ env itemUrl pageUrl hostname, env.newPageErr = none →
      env.extractErr = none → env.ensureDirErr = none →
      (processItem env itemUrl pageUrl hostname).thrown = none)
    ∧ (∀ o concurrency total, (∀ i, i < total → (o i).thrown = none) →
      runPool o concurrency total
        = Except.ok (processPagesSchedule concurrency total)) := by
  constructor
  · intro env itemUrl pageUrl hostname h1 h2 h3
    unfold processItem
    rw [h1, h2, h3]
    cases hg : env.gotoErr with
    | none =>
      dsimp only
      split
      · rfl
      · cases env.writeErr <;> rfl
    | some m =>
      dsimp only
      split
      · rfl
      · split
        · rfl
        · cases env.writeErr <;> rfl
  · intro o concurrency total hok
    show exceptAll ((List.range (Nat.min concurrency total)).map
        (fun w => runWorkerExcept o (Nat.min concurrency total) total w))
      = Except.ok (processPagesSchedule concurrency total)
    rw [exceptAll_map_ok _ (fun w => workerLoop (Nat.min concurrency total) total w) _
      (fun x _ => runWorkerExcept_ok o (Nat.min concurrency total) total hok x)]
    rfl

/-- Witness for C3 (amended) at `envGoodItem` and a 2-worker, 3-page pool. -/
theorem c3_fetch_failures_skipped_witness :
    (processItem envGoodItem "/a" "http://host/a" "host").thrown = none
    ∧ runPool (fun _ => processItem envGoodItem "/a" "http://host/a" "host") 2 3
      = Except.ok (processPagesSchedule 2 3) :=
  ⟨c3_fetch_failures_skipped.1 envGoodItem "/a" "http://host/a" "host" rfl rfl rfl,
    c3_fetch_failures_skipped.2 _ 2 3
      (fun i _ => c3_fetch_failures_skipped.1 envGoodItem
        "/a" "http://host/a" "host" rfl rfl rfl)⟩

/-- C4 (counterexample): when `extractPageContent` throws, `processItem`
exits without reaching `page.close()` — the session leaks, contradicting
"closed on every exit path". -/
theorem c4_counterexample :
    (processItem envExtractThrow "/a" "http://host/a" "host").opened = true
    ∧ (processItem envExtractThrow "/a" "http://host/a" "host").closed = false := by
  decide

/-- C4 (amended): the session is closed on the navigation-failure skip,
the empty-content skip, the success path, and the caught
image/normalise/write failures; it is not closed when an uncaught
failure (content extraction, directory creation) escapes.  Under the
assumption that those two uncaught steps succeed, every opened session
is closed. -/
theorem c4_session_closed (env : ItemEnv) (itemUrl pageUrl hostname : String)
    (h2 : env.extractErr = none) (h3 : env.ensureDirErr = none) :
    (processItem env itemUrl pageUrl hostname).opened = true →
    (processItem env itemUrl pageUrl hostname).closed = true := by
  have key : (processItem env itemUrl pageUrl hostname).closed = true
      ∨ (processItem env itemUrl pageUrl hostname).opened = false := by
    unfold processItem
    rw [h2, h3]
    cases env.newPageErr with
    | some m => right; rfl
    | none =>
      left
      cases hg : env.gotoErr with
      | none =>
        dsimp only
        split
        · rfl
        · cases env.writeErr <;> rfl
      | some m =>
        dsimp only
        split
        · rfl
        · split
          · rfl
          · cases env.writeErr <;> rfl
  intro hop
  rcases key with hk | hk
  · exact hk
  · rw [hop] at hk
    exact absurd hk (by decide)

/-- Witness for C4 at `envGoodItem`: the session is opened and closed. -/
theorem c4_session_closed_witness :
    (processItem envGoodItem "/a" "http://host/a" "host").opened = true
    ∧ (processItem envGoodItem "/a" "http://host/a" "host").closed = true :=
  ⟨by decide,
    c4_session_closed envGoodItem "/a" "http://host/a" "host" rfl rfl (by decide)⟩

/-- C6: whenever the root navigation block throws (all applicable
retries failed or were unavailable — including the quirk that a
successful protocol swap with no credentials still throws), the error
is the original first navigation error; and whenever the per-page
navigation logs a failure and skips, the logged message is the original
first error's message, never a retry's. -/
theorem c6_original_error_surfaced :
    (∀ env m, env.gotoErr = some m →
      ∀ e, navRoot env = Except.error e → e = m)
    ∧ (∀ env itemUrl pageUrl hostname m e, env.gotoErr = some m →
      (processItem env itemUrl pageUrl hostname).loggedNavError = some e →
      e = m) := by
  constructor
  · intro env m hm e hnav
    unfold navRoot at hnav
    rw [hm] at hnav
    dsimp only at hnav
    by_cases hcls : (isProtocolOrAuthError m && isHttpProtocolUrl env.url) = true
    · rw [if_pos hcls] at hnav
      cases ha : env.altGotoErr with
      | none =>
        rw [ha] at hnav
        dsimp only at hnav
        by_cases hau : hasAuth env = true
        · rw [if_pos hau] at hnav
          cases hc : env.credGotoErr with
          | none =>
            rw [hc] at hnav
            dsimp only at hnav
            cases hauth : env.auth with
            | some up =>
              obtain ⟨u, p⟩ := up
              rw [hauth] at hnav
              dsimp only at hnav
              exact absurd hnav (by simp)
            | none =>
              rw [hauth] at hnav
              dsimp only at hnav
              exact (Except.error.inj hnav).symm
          | some e2 =>
            rw [hc] at hnav
            dsimp only at hnav
            exact (Except.error.inj hnav).symm
        · rw [if_neg hau] at hnav
          exact (Except.error.inj hnav).symm
      | some e1 =>
        rw [ha] at hnav
        dsimp only at hnav
        by_cases hau : hasAuth env = true
        · rw [if_pos hau] at hnav
          cases hc : env.credGotoErr with
          | none =>
            rw [hc] at hnav
            dsimp only at hnav
            cases hauth : env.auth with
            | some up =>
              obtain ⟨u, p⟩ := up
              rw [hauth] at hnav
              dsimp only at hnav
              exact absurd hnav (by simp)
            | none =>
              rw [hauth] at hnav
              dsimp only at hnav
              exact (Except.error.inj hnav).symm
          | some e2 =>
            rw [hc] at hnav
            dsimp only at hnav
            exact (Except.error.inj hnav).symm
        · rw [if_neg hau] at hnav
          exact (Except.error.inj hnav).symm
    · rw [if_neg hcls] at hnav
      exact (Except.error.inj hnav).symm
  · intro env itemUrl pageUrl hostname m e hm hlog
    unfold processItem at hlog
    rw [hm] at hlog
    cases hn : env.newPageErr with
    | some m2 => rw [hn] at hlog; exact absurd hlog (by simp)
    | none =>
      rw [hn] at hlog
      dsimp only at hlog
      by_cases hcls : (isProtocolErrorItem m && isHttpProtocolUrl pageUrl) = true
      · rw [if_pos hcls] at hlog
        cases ha : env.altGotoErr with
        | none =>
          rw [ha] at hlog
          dsimp only at hlog
          cases h2 : env.extractErr with
          | some m2 => rw [h2] at hlog; exact absurd hlog (by simp)
          | none =>
            rw [h2] at hlog
            dsimp only at hlog
            split at hlog
            · exact absurd hlog (by simp)
            · cases h3 : env.ensureDirErr with
              | some m3 => rw [h3] at hlog; exact absurd hlog (by simp)
              | none =>
                rw [h3] at hlog
                dsimp only at hlog
                cases hw : env.writeErr with
                | some m4 => rw [hw] at hlog; exact absurd hlog (by simp)
                | none => rw [hw] at hlog; exact absurd hlog (by simp)
        | some e1 =>
          rw [ha] at hlog
          dsimp only at hlog
          exact (Option.some.inj hlog).symm
      · rw [if_neg hcls] at hlog
        dsimp only at hlog
        exact (Option.some.inj hlog).symm

/-- Witness for C6: certificate failure on both the initial and both
retry navigations; the propagated error is the original message. -/
def rootNavEnvW : RootNavEnv :=
  ⟨"https://host/x", some ("u", "p"), some "net::ERR_CERT_AUTHORITY_INVALID",
    some "retry1 failed", some "retry2 failed"⟩

theorem c6_original_error_surfaced_witness :
    (∀ e, navRoot rootNavEnvW = Except.error e → e = "net::ERR_CERT_AUTHORITY_INVALID")
    ∧ navRoot rootNavEnvW = Except.error "net::ERR_CERT_AUTHORITY_INVALID" :=
  ⟨fun e he => c6_original_error_surfaced.1 rootNavEnvW
      "net::ERR_CERT_AUTHORITY_INVALID" rfl e he,
    by decide⟩

/-! ### The single-page branch of `downloadGitbook` (lines 574-594)

The file is written unconditionally — there is no empty-content
check in this branch. -/

structure SinglePageEnv where
  markdown : String       -- turndown output for the page
  downloadImages : Bool
  imagesMd : String       -- processImages result when image download is on
deriving DecidableEq, Repr

/-- The artifact written by the single-page branch:
`path.basename(pathname) || "index"` plus `.md`, with the (possibly
empty) markdown; always `some`. -/
def singlePageArtifact (env : SinglePageEnv) (pathname : String) :
    Option (String × String) :=
  let md := if env.downloadImages then env.imagesMd else env.markdown
  let base := jsBasename pathname
  let fileName := (if base = "" then "index" else base) ++ ".md"
  some (fileName, md)

/-- A root document for exercising the mode dispatch. -/
def c7Doc : Dom := Dom.elem "BODY" [] [Dom.text "page"]

/-- C7 (counterexample): for a URL with the sub-path `/a` (so
`hasPath` at line 572 is true and, with `all` false, the single-page
branch of lines 574-594 is the one actually taken), a page whose
converted Markdown is empty after trimming still produces an output
file — `a.md` with empty contents — because that branch has no empty
check. -/
theorem c7_counterexample :
    chooseMode "/a" false c7Doc = RunMode.singlePage
    ∧ singlePageArtifact ⟨"", false, ""⟩ "/a" = some ("a.md", "")
    ∧ jsTrim "" = ""
    ∧ singlePageArtifact ⟨"", false, ""⟩ "/a" ≠ none := by
  refine ⟨by decide, by decide, by decide, by decide⟩

/-- C7 (amended): in whole-site mode a page whose markdown is empty
after trimming writes no artifact, raises no error, and releases its
session; in single-page mode the file is written unconditionally, empty
or not. -/
theorem c7_empty_markdown :
    (∀ env itemUrl pageUrl hostname, env.newPageErr = none →
      env.extractErr = none → jsTrim (itemMarkdown env) = "" →
      (processItem env itemUrl pageUrl hostname).wrote = none
      ∧ (processItem env itemUrl pageUrl hostname).thrown = none
      ∧ (processItem env itemUrl pageUrl hostname).closed = true)
    ∧ (∀ env pathname, ∃ fileName md,
      singlePageArtifact env pathname = some (fileName, md)) := by
  constructor
  · intro env itemUrl pageUrl hostname h1 h2 hmd
    unfold processItem
    rw [h1, h2]
    cases hg : env.gotoErr with
    | none =>
      dsimp only
      rw [if_pos hmd]
      exact ⟨rfl, rfl, rfl⟩
    | some m =>
      dsimp only
      split
      · exact ⟨rfl, rfl, rfl⟩
      · rw [if_pos hmd]
        exact ⟨rfl, rfl, rfl⟩
  · intro env pathname
    exact ⟨_, _, rfl⟩

/-- Witness for C7: an environment converting to whitespace-only
markdown writes nothing and throws nothing. -/
def envEmptyMd : ItemEnv :=
  ⟨none, none, none, none, "  \n ", false, Except.ok "", none, none⟩

theorem c7_empty_markdown_witness :
    ((processItem envEmptyMd "/a" "http://host/a" "host").wrote = none
      ∧ (processItem envEmptyMd "/a" "http://host/a" "host").thrown = none
      ∧ (processItem envEmptyMd "/a" "http://host/a" "host").closed = true)
    ∧ (∃ fileName md, singlePageArtifact ⟨"", false, ""⟩ "/a" = some (fileName, md)) :=
  ⟨c7_empty_markdown.1 envEmptyMd "/a" "http://host/a" "host" rfl rfl (by decide),
    c7_empty_markdown.2 ⟨"", false, ""⟩ "/a"⟩

/-! ### `processImages` (lines 936-1043)

The page's Markdown is modelled as a token list: plain text and image
references `![alt](src "title")` — the shape matched by the regex
`/!\[(.*?)\]\((.*?)\)/g` and by the rewrite regex (which tolerates an
optional quoted title).  `new URL(...)` resolution, the
`Date.now()/Math.random()` filename stem and the in-page `fetch` are
oracle fields. -/

inductive MdTok where
  | text (s : String)
  | img (alt src : String) (title : Option String)
deriving DecidableEq, Repr

structure ResolvedUrl where
  href : String
  pathname : String
deriving DecidableEq, Repr

structure ImgEnv where
  resolveUrl : String → Option ResolvedUrl  -- URL parse/resolve; none = both constructors threw
  stem : Nat → String                       -- `image_${Date.now()}_${random}` per occurrence
  fetchOk : String → Bool                   -- in-page fetch + base64 decode success

structure ImgEntry where
  localPath : String
  success : Bool
deriving DecidableEq, Repr

/-- `resolvedSrc` (lines 962-977): the parsed URL's string, else the
raw `src`. -/
def resolvedHrefOf (env : ImgEnv) (src : String) : String :=
  match env.resolveUrl src with
  | some u => u.href
  | none => src

/-- `const ext = (urlObj && path.extname(urlObj.pathname)) || ".png"`. -/
def occExt (env : ImgEnv) (src : String) : String :=
  match env.resolveUrl src with
  | some u => let e := jsExtname u.pathname; if e = "" then ".png" else e
  | none => ".png"

/-- The generated local file name of occurrence `n`. -/
def occFileName (env : ImgEnv) (n : Nat) (src : String) : String :=
  env.stem n ++ occExt env src

/-- `path.join("images", path.dirname(relativePagePath), imgFileName)`
(the backslash replacement is a no-op for posix joins). -/
def occRelPath (env : ImgEnv) (relPagePath : String) (n : Nat) (src : String) : String :=
  jsJoinParts ["images", jsDirname relPagePath, occFileName env n src]

/-- The image sources scanned by the while loop, in order, `data:` URIs
skipped before any filename is generated. -/
def imgSrcs (toks : List MdTok) : List String :=
  toks.filterMap (fun tok =>
    match tok with
    | MdTok.img _ s _ => if strStartsWith s "data:" then none else some s
    | MdTok.text _ => none)

/-- `Map.set`: overwrite the value at an existing key (keeping its
insertion position), else append. -/
def mapSet (m : List (String × ImgEntry)) (k : String) (v : ImgEntry) :
    List (String × ImgEntry) :=
  if m.any (fun p => p.1 == k) then
    m.map (fun p => if p.1 == k then (k, v) else p)
  else m ++ [(k, v)]

/-- The synchronous while loop (lines 955-1022): for the `n`-th kept
occurrence, `imageMap.set(src, {localPath, success:false})` — a later
occurrence of the same `src` overwrites the entry's path. -/
def buildEntries (env : ImgEnv) (relPagePath : String) (srcs : List String) :
    List (String × ImgEntry) :=
  (srcs.enum).foldl
    (fun m js => mapSet m js.2 ⟨occRelPath env relPagePath js.1 js.2, false⟩) []

/-- The settled download promises (lines 991-1025): each occurrence's
promise marks `imageMap.get(src).success = true` when its fetch and
decode succeed; the fetch target depends only on the resolved source,
so the surviving entry for `src` ends successful iff that fetch
succeeds. -/
def applySuccess (env : ImgEnv) (m : List (String × ImgEntry)) :
    List (String × ImgEntry) :=
  m.map (fun p => (p.1, ⟨p.2.localPath, env.fetchOk (resolvedHrefOf env p.1)⟩))

/-- The image files persisted to disk: one per occurrence whose fetch
succeeded, at that occurrence's own generated path (line 1015). -/
def imgFilesWritten (env : ImgEnv) (relPagePath : String) (srcs : List String) :
    List String :=
  (srcs.enum).filterMap (fun js =>
    if env.fetchOk (resolvedHrefOf env js.2) then
      some (occRelPath env relPagePath js.1 js.2)
    else none)

/-- One global-regex replacement (lines 1031-1037): every image token
whose source equals the map key is rewritten to the entry's local path;
the optional title is consumed by the pattern and dropped. -/
def rewriteToks (src localPath : String) (toks : List MdTok) : List MdTok :=
  toks.map (fun tok =>
    match tok with
    | MdTok.img alt s title =>
      if s == src then MdTok.img alt localPath none else MdTok.img alt s title
    | MdTok.text s => MdTok.text s)

/-- `processImages` (lines 936-1043) on the token model: build the map,
settle the downloads, then rewrite each successful entry's occurrences
in insertion order. -/
def processImagesToks (env : ImgEnv) (relPagePath : String) (toks : List MdTok) :
    List MdTok :=
  let srcs := imgSrcs toks
  let entries := applySuccess env (buildEntries env relPagePath srcs)
  entries.foldl
    (fun ts p => if p.2.success then rewriteToks p.1 p.2.localPath ts else ts) toks

/-- Concrete duplicate-source page: the same image twice. -/
def dupImgEnv : ImgEnv :=
  { resolveUrl := fun s => some ⟨s, "/img/pic.png"⟩
    stem := fun n => if n = 0 then "image_a" else "image_b"
    fetchOk := fun _ => true }

def dupImgToks : List MdTok :=
  [MdTok.img "one" "https://host/img/pic.png" none,
   MdTok.img "two" "https://host/img/pic.png" none]

/-- C5 (counterexample): with the same source URL twice and both
downloads succeeding, two distinct files are generated but BOTH
Markdown references are rewritten to the second occurrence's path —
`imageMap` is keyed by `src`, so the second occurrence overwrites the
first entry before the rewrite pass; the first file is orphaned. -/
theorem c5_counterexample :
    processImagesToks dupImgEnv "p" dupImgToks
      = [MdTok.img "one" "images/image_b.png" none,
         MdTok.img "two" "images/image_b.png" none]
    ∧ processImagesToks dupImgEnv "p" dupImgToks
      ≠ [MdTok.img "one" "images/image_a.png" none,
         MdTok.img "two" "images/image_b.png" none]
    ∧ imgFilesWritten dupImgEnv "p" (imgSrcs dupImgToks)
      = ["images/image_a.png", "images/image_b.png"] := by
  refine ⟨by decide, by decide, by decide⟩

/-- C5 (amended): for a page containing exactly two image occurrences
with the same (non-data) source whose download succeeds, two files are
written, one per occurrence at its own generated path, but both
Markdown references are rewritten to the second occurrence's local
path (the first generated file is never referenced); the two paths
differ whenever the generated file names differ. -/
theorem c5_duplicate_images (env : ImgEnv) (rel a1 a2 s : String)
    (hdata : strStartsWith s "data:" = false)
    (hfetch : env.fetchOk (resolvedHrefOf env s) = true) :
    processImagesToks env rel [MdTok.img a1 s none, MdTok.img a2 s none]
      = [MdTok.img a1 (occRelPath env rel 1 s) none,
         MdTok.img a2 (occRelPath env rel 1 s) none]
    ∧ imgFilesWritten env rel (imgSrcs [MdTok.img a1 s none, MdTok.img a2 s none])
      = [occRelPath env rel 0 s, occRelPath env rel 1 s] := by
  have hsrcs : imgSrcs [MdTok.img a1 s none, MdTok.img a2 s none] = [s, s] := by
    simp [imgSrcs, hdata]
  constructor
  · unfold processImagesToks
    rw [hsrcs]
    dsimp only
    have hentries : buildEntries env rel [s, s]
        = [(s, ⟨occRelPath env rel 1 s, false⟩)] := by
      show mapSet (mapSet [] s ⟨occRelPath env rel 0 s, false⟩) s
          ⟨occRelPath env rel 1 s, false⟩
        = [(s, ⟨occRelPath env rel 1 s, false⟩)]
      unfold mapSet
      simp
    rw [hentries]
    unfold applySuccess
    rw [List.map_cons, List.map_nil]
    dsimp only
    rw [hfetch]
    show (if true = true then rewriteToks s (occRelPath env rel 1 s)
        [MdTok.img a1 s none, MdTok.img a2 s none]
      else [MdTok.img a1 s none, MdTok.img a2 s none]) = _
    rw [if_pos rfl]
    unfold rewriteToks
    simp
  · rw [hsrcs]
    unfold imgFilesWritten
    show List.filterMap _ [(0, s), (1, s)] = _
    simp [hfetch]

/-- Witness for C5 at the concrete duplicate-source page. -/
theorem c5_duplicate_images_witness :
    (processImagesToks dupImgEnv "p" dupImgToks
      = [MdTok.img "one" (occRelPath dupImgEnv "p" 1 "https://host/img/pic.png") none,
         MdTok.img "two" (occRelPath dupImgEnv "p" 1 "https://host/img/pic.png") none]
      ∧ imgFilesWritten dupImgEnv "p" (imgSrcs dupImgToks)
        = [occRelPath dupImgEnv "p" 0 "https://host/img/pic.png",
           occRelPath dupImgEnv "p" 1 "https://host/img/pic.png"])
    ∧ occRelPath dupImgEnv "p" 0 "https://host/img/pic.png"
      ≠ occRelPath dupImgEnv "p" 1 "https://host/img/pic.png" :=
  ⟨c5_duplicate_images dupImgEnv "p" "one" "two" "https://host/img/pic.png"
      (by decide) (by decide),
    by decide⟩
